import Mathlib

/-!
# The `pack` packet codec (`package.go`)

A shallow embedding of the packet codec of `package.go` and the theorems that
settle the claims made about it.

Modelling conventions.

* A Go `byte` is `Fin 256`, a Go `uint16` is `Fin 65536`; the conversions
  `byte(x)` and `uint16(x)` reduce modulo `2^8` and `2^16`.  A Go `int` is a
  natural number (no quantity of the codec comes near `2^63`).
* A `[]byte`, and the unread part of a `bytes.Buffer`, is a `List Byte`.
* `PackageMember` is `*[]byte`: `none` is the nil pointer.
* `PackageMembers` is `map[byte]PackageMember`: an association list whose keys
  are pairwise distinct (`PackageMembers.Valid`).  The position of an entry in
  the list carries no meaning; the order in which a `range` statement visits
  the entries is an explicit argument of the function that ranges.  The nil
  map reads like the empty map and is the table `[]` too; whether the map is
  nil is an explicit argument of the two functions that assign to it.
* An `io.Reader` is the finite sequence of bytes it delivers before end of
  file; an `io.Writer` is a state machine (`Writer`).
* A function returning `(value, error)` returns a `Result` (or an `Except`
  when it can neither panic nor loop).
-/

namespace Pack

/-! ## Machine types -/

abbrev Byte := Fin 256

abbrev Uint16 := Fin 65536

/-- Go conversion `byte(n)`. -/
def byte (n : Nat) : Byte := ⟨n % 256, Nat.mod_lt _ (by decide)⟩

/-- Go conversion `uint16(n)`. -/
def uint16 (n : Nat) : Uint16 := ⟨n % 65536, Nat.mod_lt _ (by decide)⟩

/-! ## Constants (`package.go` lines 16-29) -/

def PACKAGE_HEAD_TAIL : Uint16 := 0x1F9E

def PACKAGE_HEAD_TAIL_1 : Byte := 0x9E

def PACKAGE_HEAD_TAIL_2 : Byte := 0x1F

def PACKAGE_HEAD_LEN : Uint16 := 6

def PACKAGE_MAX_LENGTH : Nat := 65535

def PACKAGE_MEMBER_TYPE_A : Byte := 65

def PACKAGE_MEMBER_TYPE_B : Byte := 66

def PACKAGE_MEMBER_TYPE_C : Byte := 67

/-! ## Errors and results -/

/-- Go `error` values met by the codec: the two sentinels of package `io` and
the errors made with `errors.New`. -/
inductive Error where
  | EOF
  | ErrUnexpectedEOF
  | New (text : String)
  deriving DecidableEq, Repr

/-- Outcome of a codec function with the Go signature `(value, error)`.
`panic` is a run-time panic (index out of range, nil dereference);
`outOfFuel` is the loop bound of the model being exhausted, which the
theorems show never to happen. -/
inductive Result (α : Type) where
  | ok (a : α)
  | error (err : Error)
  | panic
  | outOfFuel
  deriving DecidableEq, Repr

/-- One lower-case hexadecimal digit. -/
def hexDigit (n : Nat) : Char :=
  if n < 10 then Char.ofNat (48 + n) else Char.ofNat (87 + n)

/-- Go `fmt.Sprintf("% 0x", data)`: two hex digits per byte, blank separated. -/
def hexBytes : List Byte → String
  | [] => ""
  | [b] => String.mk [hexDigit (b.val / 16), hexDigit (b.val % 16)]
  | b :: bs => String.mk [hexDigit (b.val / 16), hexDigit (b.val % 16), ' '] ++ hexBytes bs

/-! ## Data model (`package.go` lines 36-43) -/

/-- Go `type PackageMember *[]byte`; `none` is the nil pointer. -/
abbrev PackageMember := Option (List Byte)

/-- Go `type PackageMembers map[byte]PackageMember`. -/
abbrev PackageMembers := List (Byte × PackageMember)

/-- Go `type Package struct`; `members = none` is the nil table pointer. -/
structure Package where
  MsgId : Uint16
  dataSize : Uint16
  members : Option PackageMembers
  deriving DecidableEq, Repr

/-- The keys of a map are pairwise distinct. -/
def PackageMembers.Valid (members : PackageMembers) : Prop :=
  (members.map Prod.fst).Nodup

/-- Go map read `member, found = members[k]`: `none` when not found. -/
def PackageMembers.lookup : PackageMembers → Byte → Option PackageMember
  | [], _ => none
  | (k', v) :: rest, k => if k' = k then some v else PackageMembers.lookup rest k

/-- Go map write `members[k] = v`: replaces the entry of `k` or adds one. -/
def PackageMembers.store : PackageMembers → Byte → PackageMember → PackageMembers
  | [], k, v => [(k, v)]
  | (k', v') :: rest, k, v =>
    if k' = k then (k, v) :: rest else (k', v') :: PackageMembers.store rest k v

/-! ## Library calls used by the codec -/

/-- Go `binary.Write(buf, binary.LittleEndian, v)` for a `uint16` on a
`bytes.Buffer`: appends the low byte, then the high byte; it cannot fail. -/
def binaryWriteUint16 (buf : List Byte) (v : Uint16) : List Byte × Option Error :=
  (buf ++ [byte v.val, byte (v.val / 256)], none)

/-- Go `binary.Read(buf, binary.LittleEndian, &v)` for a `uint16` on a
`bytes.Buffer`: `io.ReadFull` of two bytes, so `io.EOF` on an empty buffer
and `io.ErrUnexpectedEOF` (the buffer drained) on a single byte.  Returns the
outcome and the unread rest of the buffer. -/
def binaryReadUint16 : List Byte → Except Error Uint16 × List Byte
  | b0 :: b1 :: rest => (.ok (uint16 (b0.val + 256 * b1.val)), rest)
  | [_] => (.error Error.ErrUnexpectedEOF, [])
  | [] => (.error Error.EOF, [])

/-- Go `io.ReadAtLeast(reader, buf, min)` with `len(buf) = min`, on a reader
that delivers the bytes `reader` and then end of file.  With `min = 0` the
loop body never runs and nothing is read.  Otherwise `min` bytes are taken;
a reader holding fewer is drained and the call fails with `io.EOF` (nothing
read) or `io.ErrUnexpectedEOF` (something read). -/
def ReadAtLeast (reader : List Byte) (min : Nat) : Except Error (List Byte) × List Byte :=
  if min = 0 then (.ok [], reader)
  else if min ≤ reader.length then (.ok (reader.take min), reader.drop min)
  else if reader.length = 0 then (.error Error.EOF, [])
  else (.error Error.ErrUnexpectedEOF, [])

/-- An `io.Writer`: `Write` maps the state of the sink and the bytes offered
to the next state, the count `n` it reports and the error it reports. -/
structure Writer (σ : Type) where
  Write : σ → List Byte → σ × Nat × Option Error

/-- Go `bytes.Buffer` as a writer: appends everything, never fails. -/
def bytesBuffer : Writer (List Byte) where
  Write := fun s p => (s ++ p, p.length, none)

/-! ## Header codec (`package.go` lines 237-252 and 368-384) -/

/-- Go `func (pack *Package) headBytes() (headData []byte, err error)`. -/
def Package.headBytes (pack : Package) : Except Error (List Byte) :=
  let buf : List Byte := []
  match binaryWriteUint16 buf pack.MsgId with
  | (_, some err) => .error err
  | (buf, none) =>
    match binaryWriteUint16 buf pack.dataSize with
    | (_, some err) => .error err
    | (buf, none) =>
      match binaryWriteUint16 buf PACKAGE_HEAD_TAIL with
      | (_, some err) => .error err
      | (buf, none) => .ok buf

/-- Go `func parsePackageHead(data []byte) (pack *Package, err error)`.
The indexing `data[4]`, `data[5]` panics on a slice that is too short; the
second operand of `||` is only evaluated when the first is false. -/
def parsePackageHead (data : List Byte) : Result Package :=
  match data[4]? with
  | none => .panic
  | some d4 =>
    if d4 ≠ PACKAGE_HEAD_TAIL_1 then
      .error (Error.New ("Head error! data: " ++ hexBytes data))
    else
      match data[5]? with
      | none => .panic
      | some d5 =>
        if d5 ≠ PACKAGE_HEAD_TAIL_2 then
          .error (Error.New ("Head error! data: " ++ hexBytes data))
        else
          match binaryReadUint16 data with
          | (.error err, _) => .error err
          | (.ok msgId, buf) =>
            match binaryReadUint16 buf with
            | (.error err, _) => .error err
            | (.ok dataSize, _) => .ok ⟨msgId, dataSize, none⟩

/-! ## Member-stream codec (`package.go` lines 254-279) -/

/-- The loop of `parseMembers`: `buf` is the unread part of the buffer,
`members` the map built so far.  The first argument bounds the number of
iterations. -/
def parseMembersLoop : Nat → List Byte → PackageMembers → Result PackageMembers
  | _, [], members => .ok members
  | 0, _ :: _, _ => .outOfFuel
  | fuel + 1, memberType :: buf, members =>
    match binaryReadUint16 buf with
    | (.error err, _) => .error err
    | (.ok datalen, buf) =>
      if datalen.val > buf.length then
        .error (Error.New "EOF")
      else
        let member := buf.take datalen.val
        parseMembersLoop fuel (buf.drop datalen.val)
          (PackageMembers.store members memberType (some member))

/-- Go `func parseMembers(data *[]byte) (*PackageMembers, error)`, on the
slice `data` points to.  Every iteration consumes at least three bytes, so
`len(data)` iterations always suffice. -/
def parseMembers (data : List Byte) : Result PackageMembers :=
  parseMembersLoop data.length data []

/-! ## Packet facade: parse (`package.go` lines 155-176) -/

/-- Go `func ParsePackage(reader io.Reader) (pack *Package, err error)`.
Returns the outcome and what is left unread in the reader. -/
def ParsePackage (reader : List Byte) : Result Package × List Byte :=
  match ReadAtLeast reader PACKAGE_HEAD_LEN.val with
  | (.error err, reader) => (.error err, reader)
  | (.ok head, reader) =>
    match parsePackageHead head with
    | .error err => (.error err, reader)
    | .panic => (.panic, reader)
    | .outOfFuel => (.outOfFuel, reader)
    | .ok pack =>
      match ReadAtLeast reader pack.dataSize.val with
      | (.error err, reader) => (.error err, reader)
      | (.ok data, reader) =>
        match parseMembers data with
        | .error err => (.error err, reader)
        | .panic => (.panic, reader)
        | .outOfFuel => (.outOfFuel, reader)
        | .ok members => (.ok { pack with members := some members }, reader)

/-! ## Packet facade: write (`package.go` lines 309-366) -/

/-- The first loop of `Write` (lines 315-320) over the entries in the order
`range` visits them: nil members are skipped. -/
def sumDataSize (range : List (Byte × PackageMember)) : Nat :=
  range.foldl
    (fun dataSize e =>
      match e.2 with
      | some member => dataSize + 3 + member.length
      | none => dataSize)
    0

/-- The second loop of `Write` (lines 337-364) over the entries in the order
`range` visits them, from sink state `writer` and running count `n`.
Returns the sink, the count and the error `Write` returns with.  The result
of writing the key byte is discarded by the code. -/
def writeMembers {σ : Type} (W : Writer σ) :
    List (Byte × PackageMember) → σ → Nat → σ × Nat × Option Error
  | [], writer, n => (writer, n, none)
  | (memberType, member) :: rest, writer, n =>
    let writer := (W.Write writer [memberType]).1
    let n := n + 1
    let memberLen := match member with
      | some m => m.length
      | none => 0
    match binaryWriteUint16 [] (uint16 memberLen) with
    | (_, some err) => (writer, n, some err)
    | (buf, none) =>
      match W.Write writer buf with
      | (writer, _, some err) => (writer, n, some err)
      | (writer, tn, none) =>
        if tn ≠ 2 then
          (writer, n + tn, some (Error.New ("Member len value is not 16bit: " ++ toString tn)))
        else
          let n := n + tn
          if memberLen > 0 then
            match W.Write writer (member.getD []) with
            | (writer, _, some err) => (writer, n, some err)
            | (writer, tn, none) => writeMembers W rest writer (n + tn)
          else
            writeMembers W rest writer n

/-- What a call of `Write` leaves behind: the receiver (its `dataSize` is
assigned by `Write`), the sink, and the returned `(n, err)`, or `none` when
the call ended in a run-time panic. -/
structure WriteResult (σ : Type) where
  pack : Package
  writer : σ
  ret : Option (Nat × Option Error)

/-- Go `func (pack *Package) Write(writer io.Writer) (n int, err error)`.
`range₁` and `range₂` are the orders in which the two `range` loops visit the
entries of `*pack.members`; Go leaves both unspecified, so they are arguments
(each a permutation of the table).  Ranging over `*pack.members` when the
pointer is nil is a nil dereference. -/
def Package.Write {σ : Type} (W : Writer σ) (pack : Package)
    (range₁ range₂ : List (Byte × PackageMember)) (writer : σ) : WriteResult σ :=
  let sized : Except Error Package :=
    match pack.members with
    | none => .ok { pack with dataSize := 0 }
    | some _ =>
      let dataSize := sumDataSize range₁
      if dataSize > PACKAGE_MAX_LENGTH then
        .error (Error.New ("Packet size overflow, datasize: " ++ toString dataSize))
      else
        .ok { pack with dataSize := uint16 dataSize }
  match sized with
  | .error err => ⟨pack, writer, some (0, some err)⟩
  | .ok pack =>
    match pack.headBytes with
    | .error err => ⟨pack, writer, some (0, some err)⟩
    | .ok headData =>
      match W.Write writer headData with
      | (writer, _, some err) => ⟨pack, writer, some (0, some err)⟩
      | (writer, tn, none) =>
        match pack.members with
        | none => ⟨pack, writer, none⟩
        | some _ =>
          match writeMembers W range₂ writer tn with
          | (writer, n, err) => ⟨pack, writer, some (n, err)⟩

/-! ## Vocabulary of the statements -/

/-- A table all of whose values are non-nil, given by its byte-string values. -/
def nonNil (T : List (Byte × List Byte)) : PackageMembers :=
  T.map (fun e => (e.1, some e.2))

/-- The sum over the entries of `3 + len(value)`. -/
def encodedSize (T : List (Byte × List Byte)) : Nat :=
  (T.map (fun e => 3 + e.2.length)).sum

/-- One member record on the wire: key, two-byte little-endian length, value. -/
def record (e : Byte × List Byte) : List Byte :=
  e.1 :: byte (e.2.length % 256) :: byte (e.2.length / 256) :: e.2

/-- The six header bytes of message id `m` and declared length `d`. -/
def header (m d : Uint16) : List Byte :=
  [byte (m.val % 256), byte (m.val / 256), byte (d.val % 256), byte (d.val / 256), 0x9E, 0x1F]

/-- The table obtained by storing the records one after the other. -/
def storeAll (members : PackageMembers) (recs : List (Byte × List Byte)) : PackageMembers :=
  recs.foldl (fun m e => PackageMembers.store m e.1 (some e.2)) members

/-- Scanning member records from offset 0, some record announces a length
that exceeds what is left of the buffer after its length field. -/
inductive Truncated : List Byte → Prop where
  | here (k lo hi : Byte) (rest : List Byte) :
      lo.val + 256 * hi.val > rest.length → Truncated (k :: lo :: hi :: rest)
  | later (k lo hi : Byte) (rest : List Byte) :
      lo.val + 256 * hi.val ≤ rest.length →
      Truncated (rest.drop (lo.val + 256 * hi.val)) → Truncated (k :: lo :: hi :: rest)

/-- A sink that accepts every write: each `Write` reports the whole chunk and
no error, and `received`, the bytes the sink has been given so far, grows by
exactly that chunk. -/
structure Accepting {σ : Type} (W : Writer σ) (received : σ → List Byte) : Prop where
  count : ∀ s p, (W.Write s p).2 = (p.length, none)
  grows : ∀ s p, received (W.Write s p).1 = received s ++ p

instance (members : PackageMembers) : Decidable members.Valid :=
  inferInstanceAs (Decidable (List.Nodup _))

/-- The member table of `TestPackage` (`package_test.go` lines 78-87):
`'A': "AString"`, `'B': "BString"`, `'C': "CString"`. -/
def testMembers : List (Byte × List Byte) :=
  [(65, [65, 83, 116, 114, 105, 110, 103]),
   (66, [66, 83, 116, 114, 105, 110, 103]),
   (67, [67, 83, 116, 114, 105, 110, 103])]

/-- A table with a nil member: key 0 maps to the nil pointer, key 1 to a value
of 65532 zero bytes (as after `AddMember(0, nil)` and `AddMember(1, &v)`). -/
def nilMemberTable : PackageMembers :=
  [(0, none), (1, some (List.replicate 65532 0))]

/-! ## Packet facade: accessors (`package.go` lines 54-127)

The accessors dereference `pack.members`; on a nil table pointer that is a
run-time panic.  A non-nil pointer may point to the nil map (a
`var ms PackageMembers` that was never made): the nil map holds no entry and
reads, ranges and measures like an empty map, so a table `[]` stands for
both, and every function that only reads the map treats them alike.  The one
operation that tells them apart is the assignment `m[k] = v`, which panics on
the nil map; the two functions that assign take the fact as an argument.  A
Go `string` is the sequence of its bytes. -/

/-- Go `func NewPackage(msgId uint16, members *PackageMembers) (pack *Package)`:
a nil pointer is replaced by a pointer to a fresh map; a non-nil pointer is
kept as it is, also when the map it points to is the nil map. -/
def NewPackage (msgId : Uint16) (members : Option PackageMembers) : Package :=
  match members with
  | none => ⟨msgId, 0, some []⟩
  | some ms => ⟨msgId, 0, some ms⟩

/-- Go `func (pack *Package) Member(memberType byte) (member PackageMember)`:
the stored pointer, or the nil pointer when the key is absent. -/
def Package.Member (pack : Package) (memberType : Byte) : Result PackageMember :=
  match pack.members with
  | none => .panic
  | some members =>
    match PackageMembers.lookup members memberType with
    | some member => .ok member
    | none => .ok none

/-- Go `func (pack *Package) SetMembers(members *PackageMembers)`. -/
def Package.SetMembers (pack : Package) (members : Option PackageMembers) : Package :=
  { pack with members := members }

/-- Go `func (pack *Package) AddMember(memberType byte, member PackageMember)`;
returns the receiver after the call.  `nilMap` tells whether the map that
`pack.members` points to is the nil map (only a map without entries can be):
the assignment `(*pack.members)[memberType] = member` then panics with
`assignment to entry in nil map`.  After a call that returns, the map is not
nil. -/
def Package.AddMember (pack : Package) (memberType : Byte) (member : PackageMember)
    (nilMap : Bool) : Result Package :=
  match pack.members with
  | none => .panic
  | some members =>
    if nilMap then .panic
    else .ok { pack with members := some (PackageMembers.store members memberType member) }

/-- Go `func (pack *Package) AddStringMember(memberType byte, str string)`;
returns the receiver after the call.  `nilMap` is as for `AddMember`: the
assignment panics on the nil map. -/
def Package.AddStringMember (pack : Package) (memberType : Byte) (str : List Byte)
    (nilMap : Bool) : Result Package :=
  let member := str
  match pack.members with
  | none => .panic
  | some members =>
    if nilMap then .panic
    else
      .ok { pack with members := some (PackageMembers.store members memberType (some member)) }

/-- Go `func (pack *Package) AMember() (member PackageMember, err error)`. -/
def Package.AMember (pack : Package) : Result PackageMember :=
  match pack.members with
  | none => .panic
  | some members =>
    match PackageMembers.lookup members PACKAGE_MEMBER_TYPE_A with
    | none => .error (Error.New "member A is nil")
    | some member => .ok member

/-- Go `func (pack *Package) BMember() (member PackageMember, err error)`. -/
def Package.BMember (pack : Package) : Result PackageMember :=
  match pack.members with
  | none => .panic
  | some members =>
    match PackageMembers.lookup members PACKAGE_MEMBER_TYPE_B with
    | none => .error (Error.New "member B is nil")
    | some member => .ok member

/-- Go `func (pack *Package) CMember() (member PackageMember, err error)`. -/
def Package.CMember (pack : Package) : Result PackageMember :=
  match pack.members with
  | none => .panic
  | some members =>
    match PackageMembers.lookup members PACKAGE_MEMBER_TYPE_C with
    | none => .error (Error.New "member C is nil")
    | some member => .ok member

/-- Go `func (pack *Package) TwoMembers() (memberA, memberB PackageMember, err error)`. -/
def Package.TwoMembers (pack : Package) : Result (PackageMember × PackageMember) :=
  match pack.members with
  | none => .panic
  | some members =>
    match PackageMembers.lookup members PACKAGE_MEMBER_TYPE_A with
    | none => .error (Error.New "member A is nil")
    | some memberA =>
      match PackageMembers.lookup members PACKAGE_MEMBER_TYPE_B with
      | none => .error (Error.New "member B is nil")
      | some memberB => .ok (memberA, memberB)

/-- Go `func (pack *Package) ThreeMembers() (memberA, memberB, memberC
PackageMember, err error)`. -/
def Package.ThreeMembers (pack : Package) :
    Result (PackageMember × PackageMember × PackageMember) :=
  match pack.members with
  | none => .panic
  | some members =>
    match PackageMembers.lookup members PACKAGE_MEMBER_TYPE_A with
    | none => .error (Error.New "member A is nil")
    | some memberA =>
      match PackageMembers.lookup members PACKAGE_MEMBER_TYPE_B with
      | none => .error (Error.New "member B is nil")
      | some memberB =>
        match PackageMembers.lookup members PACKAGE_MEMBER_TYPE_C with
        | none => .error (Error.New "member C is nil")
        | some memberC => .ok (memberA, memberB, memberC)

/-! ## Packet facade: buffered body (`package.go` lines 178-194) -/

/-- Go `func ParsePackageForHtml(msgId uint16, resp *http.Response)`, where
`body` is what `ioutil.ReadAll(resp.Body)` returns (its error is overwritten
by the one of `parseMembers`). -/
def ParsePackageForHtml (msgId : Uint16) (body : List Byte) : Result Package :=
  let data := body
  let dataSize := data.length
  let pack : Package := ⟨msgId, uint16 dataSize, none⟩
  match parseMembers data with
  | .error err => .error err
  | .panic => .panic
  | .outOfFuel => .outOfFuel
  | .ok members => .ok { pack with members := some members }

/-! ## Further vocabulary of the statements -/

/-- The little-endian `uint16` at offsets 2 and 3 of a stream (bytes that are
not there count as 0). -/
def declaredLength (s : List Byte) : Nat :=
  (s.getD 2 0).val + 256 * (s.getD 3 0).val

/-- The sum over the entries of a member table of `1 + 2 + len(value)`, the
length of a nil value being 0. -/
def tableSize (T : PackageMembers) : Nat :=
  (T.map (fun e => 3 + (e.2.getD []).length)).sum

/-- A sink that follows a script: its state is the log of the writes it was
offered, each with the count it reported; the write number `i` (from 0) fails
with count 0 and an error when `fail i`, and is accepted whole otherwise. -/
def scriptWriter (fail : Nat → Bool) : Writer (List (List Byte × Nat)) where
  Write := fun log p =>
    if fail log.length then (log ++ [(p, 0)], 0, some (Error.New "write failed"))
    else (log ++ [(p, p.length)], p.length, none)

/-- The number of bytes a scripted sink has accepted. -/
def acceptedBytes (log : List (List Byte × Nat)) : Nat :=
  (log.map Prod.snd).sum

/-- A sink of bounded capacity: it takes what still fits and reports a short
write with an error for the rest.  Its state is the bytes it has accepted. -/
def limitedWriter (capacity : Nat) : Writer (List Byte) where
  Write := fun s p =>
    if s.length + p.length ≤ capacity then (s ++ p, p.length, none)
    else (s ++ p.take (capacity - s.length), capacity - s.length,
      some (Error.New "short write"))

/-- A response body of 65538 bytes: one record under key 0 whose value is
65535 zero bytes. -/
def longBody : List Byte :=
  record (0, List.replicate 65535 0)

/-- A sink that accepts its first write and fails every later one (a
connection lost after the header went out). -/
def failAfterFirst : Writer (List (List Byte × Nat)) :=
  scriptWriter (fun i => decide (1 ≤ i))

/-- A sink that fails its second write only (a transient error) and accepts
every other write. -/
def failSecondOnly : Writer (List (List Byte × Nat)) :=
  scriptWriter (fun i => decide (i = 1))

/-- A package with the single member `'A': "x"`. -/
def oneMemberPackage : Package :=
  ⟨1, 0, some [(65, some [120])]⟩

/-- A table whose only member is nil: key 0 maps to the nil pointer (as after
`AddMember(0, nil)` on an empty table). -/
def nilOnlyTable : PackageMembers :=
  [(0, none)]

/-! ## Machine arithmetic -/

theorem byte_val (n : Nat) : (byte n).val = n % 256 := rfl

theorem uint16_val (n : Nat) : (uint16 n).val = n % 65536 := rfl

theorem uint16_of_le {n : Nat} (h : n ≤ 65535) : (uint16 n).val = n := by
  rw [uint16_val]; omega

theorem uint16_bytes (b0 b1 : Byte) : (uint16 (b0.val + 256 * b1.val)).val = b0.val + 256 * b1.val := by
  rw [uint16_val]; have := b0.isLt; have := b1.isLt; omega

theorem uint16_split (v : Uint16) :
    uint16 ((byte v.val).val + 256 * (byte (v.val / 256)).val) = v := by
  apply Fin.ext
  rw [uint16_val, byte_val, byte_val]
  have := v.isLt
  omega

theorem headBytes_eq (pack : Package) :
    pack.headBytes = .ok [byte pack.MsgId.val, byte (pack.MsgId.val / 256),
      byte pack.dataSize.val, byte (pack.dataSize.val / 256), 0x9E, 0x1F] := by
  rfl

theorem parsePackageHead_six (b0 b1 b2 b3 b4 b5 : Byte) :
    parsePackageHead [b0, b1, b2, b3, b4, b5] =
      if b4 ≠ 0x9E ∨ b5 ≠ 0x1F then
        .error (Error.New ("Head error! data: " ++ hexBytes [b0, b1, b2, b3, b4, b5]))
      else
        .ok ⟨uint16 (b0.val + 256 * b1.val), uint16 (b2.val + 256 * b3.val), none⟩ := by
  by_cases h4 : b4 = 0x9E <;> by_cases h5 : b5 = 0x1F <;>
    simp [parsePackageHead, binaryReadUint16, PACKAGE_HEAD_TAIL_1, PACKAGE_HEAD_TAIL_2, h4, h5]

/-! ## The member loop -/

theorem parseMembersLoop_step (fuel : Nat) (k lo hi : Byte) (rest : List Byte)
    (members : PackageMembers) :
    parseMembersLoop (fuel + 1) (k :: lo :: hi :: rest) members =
      if lo.val + 256 * hi.val > rest.length then .error (Error.New "EOF")
      else parseMembersLoop fuel (rest.drop (lo.val + 256 * hi.val))
        (PackageMembers.store members k (some (rest.take (lo.val + 256 * hi.val)))) := by
  simp only [parseMembersLoop, binaryReadUint16, uint16_bytes]

/-- Fuel beyond the length of the buffer changes nothing. -/
theorem parseMembersLoop_fuel (fuel : Nat) :
    ∀ (fuel' : Nat) (buf : List Byte) (members : PackageMembers),
      buf.length ≤ fuel → buf.length ≤ fuel' →
      parseMembersLoop fuel buf members = parseMembersLoop fuel' buf members := by
  induction fuel with
  | zero =>
    intro fuel' buf members h _
    have : buf = [] := List.length_eq_zero.mp (Nat.le_zero.mp h)
    subst this
    cases fuel' <;> rfl
  | succ fuel ih =>
    intro fuel' buf members h h'
    match buf, h, h' with
    | [], _, _ => cases fuel' <;> rfl
    | [_], _, h2 =>
      cases fuel' with
      | zero => simp at h2
      | succ f => rfl
    | [_, _], _, h2 =>
      cases fuel' with
      | zero => simp at h2
      | succ f => rfl
    | k :: lo :: hi :: rest, h, h' =>
      cases fuel' with
      | zero => simp at h'
      | succ f =>
        rw [parseMembersLoop_step, parseMembersLoop_step]
        split
        · rfl
        · apply ih
          · simp only [List.length_drop, List.length_cons] at *; omega
          · simp only [List.length_drop, List.length_cons] at *; omega

theorem parseMembers_cons (k lo hi : Byte) (rest : List Byte) :
    parseMembers (k :: lo :: hi :: rest) =
      if lo.val + 256 * hi.val > rest.length then .error (Error.New "EOF")
      else parseMembersLoop (rest.drop (lo.val + 256 * hi.val)).length
        (rest.drop (lo.val + 256 * hi.val))
        (PackageMembers.store [] k (some (rest.take (lo.val + 256 * hi.val)))) := by
  unfold parseMembers
  simp only [List.length_cons]
  rw [parseMembersLoop_step]
  split
  · rfl
  · apply parseMembersLoop_fuel
    · simp only [List.length_drop]; omega
    · exact le_rfl

/-- The loop never exhausts a bound of at least the buffer length. -/
theorem parseMembersLoop_total (fuel : Nat) :
    ∀ (buf : List Byte) (members : PackageMembers), buf.length ≤ fuel →
      parseMembersLoop fuel buf members ≠ .outOfFuel := by
  induction fuel with
  | zero =>
    intro buf members h
    have : buf = [] := List.length_eq_zero.mp (Nat.le_zero.mp h)
    subst this
    simp [parseMembersLoop]
  | succ fuel ih =>
    intro buf members h
    match buf, h with
    | [], _ => simp [parseMembersLoop]
    | [_], _ => simp [parseMembersLoop, binaryReadUint16]
    | [_, _], _ => simp [parseMembersLoop, binaryReadUint16]
    | k :: lo :: hi :: rest, h =>
      rw [parseMembersLoop_step]
      split
      · simp
      · apply ih
        simp only [List.length_drop, List.length_cons] at *; omega

/-- The bound `parseMembers` gives its loop is never exhausted: the function
returns on every buffer. -/
theorem parseMembers_total (data : List Byte) : parseMembers data ≠ .outOfFuel :=
  parseMembersLoop_total data.length data [] le_rfl

/-! ## The member table -/

theorem lookup_store (members : PackageMembers) (k k' : Byte) (v : PackageMember) :
    PackageMembers.lookup (PackageMembers.store members k v) k' =
      if k = k' then some v else PackageMembers.lookup members k' := by
  induction members with
  | nil => simp [PackageMembers.store, PackageMembers.lookup]
  | cons e rest ih =>
    obtain ⟨k0, v0⟩ := e
    by_cases h0 : k0 = k
    · subst h0
      by_cases h1 : k0 = k' <;> simp [PackageMembers.store, PackageMembers.lookup, h1]
    · by_cases h1 : k0 = k'
      · subst h1
        have h2 : ¬ k = k0 := fun h => h0 h.symm
        simp [PackageMembers.store, PackageMembers.lookup, h0, h2]
      · simp [PackageMembers.store, PackageMembers.lookup, h0, h1, ih]

theorem keys_store (members : PackageMembers) (k : Byte) (v : PackageMember) :
    (PackageMembers.store members k v).map Prod.fst =
      if k ∈ members.map Prod.fst then members.map Prod.fst
      else members.map Prod.fst ++ [k] := by
  induction members with
  | nil => simp [PackageMembers.store]
  | cons e rest ih =>
    obtain ⟨k0, v0⟩ := e
    by_cases h0 : k0 = k
    · subst h0
      simp [PackageMembers.store]
    · have h2 : ¬ k = k0 := fun h => h0 h.symm
      simp only [PackageMembers.store, h0, if_false, List.map_cons, ih, List.mem_cons, h2,
        false_or]
      split <;> simp

theorem valid_store (members : PackageMembers) (k : Byte) (v : PackageMember)
    (h : members.Valid) : (PackageMembers.store members k v).Valid := by
  unfold PackageMembers.Valid at *
  rw [keys_store]
  split
  · exact h
  · rename_i hk
    rw [List.nodup_append]
    refine ⟨h, List.nodup_singleton k, ?_⟩
    intro a ha hb
    rw [List.mem_singleton] at hb
    subst hb
    exact hk ha

theorem lookup_eq_none_iff (members : PackageMembers) (k : Byte) :
    PackageMembers.lookup members k = none ↔ k ∉ members.map Prod.fst := by
  induction members with
  | nil => simp [PackageMembers.lookup]
  | cons e rest ih =>
    obtain ⟨k0, v0⟩ := e
    by_cases h0 : k0 = k
    · simp [PackageMembers.lookup, h0]
    · have h2 : ¬ k = k0 := fun h => h0 h.symm
      simp [PackageMembers.lookup, h0, h2, ih]

theorem lookup_of_mem (members : PackageMembers) (h : members.Valid) (k : Byte)
    (v : PackageMember) (hm : (k, v) ∈ members) :
    PackageMembers.lookup members k = some v := by
  induction members with
  | nil => simp at hm
  | cons e rest ih =>
    obtain ⟨k0, v0⟩ := e
    unfold PackageMembers.Valid at h
    simp only [List.map_cons, List.nodup_cons] at h
    rcases List.mem_cons.mp hm with heq | hin
    · cases heq
      simp [PackageMembers.lookup]
    · have hne : ¬ k0 = k := by
        intro hk
        subst hk
        exact h.1 (List.mem_map.mpr ⟨(k0, v), hin, rfl⟩)
      simp only [PackageMembers.lookup, hne, if_false]
      exact ih h.2 hin

theorem valid_storeAll (recs : List (Byte × List Byte)) :
    ∀ members : PackageMembers, members.Valid → (storeAll members recs).Valid := by
  induction recs with
  | nil => intro members h; exact h
  | cons e rest ih =>
    intro members h
    exact ih _ (valid_store members e.1 (some e.2) h)

theorem lookup_storeAll (recs : List (Byte × List Byte)) :
    ∀ (members : PackageMembers) (k : Byte),
      PackageMembers.lookup (storeAll members recs) k =
        match recs.reverse.find? (fun r => r.1 = k) with
        | some r => some (some r.2)
        | none => PackageMembers.lookup members k := by
  induction recs with
  | nil => intro members k; rfl
  | cons e rest ih =>
    intro members k
    show PackageMembers.lookup (storeAll (PackageMembers.store members e.1 (some e.2)) rest) k = _
    rw [ih, List.reverse_cons, List.find?_append]
    cases hfind : List.find? (fun r => decide (r.1 = k)) rest.reverse with
    | some r => simp
    | none =>
      by_cases hk : e.1 = k <;> simp [lookup_store, hk]

/-! ## Records on the wire -/

theorem parseMembersLoop_record (fuel : Nat) (e : Byte × List Byte) (he : e.2.length ≤ 65535)
    (rest : List Byte) (members : PackageMembers) :
    parseMembersLoop (fuel + 1) (record e ++ rest) members =
      parseMembersLoop fuel rest (PackageMembers.store members e.1 (some e.2)) := by
  have hlen : (byte (e.2.length % 256)).val + 256 * (byte (e.2.length / 256)).val
      = e.2.length := by
    rw [byte_val, byte_val]; omega
  show parseMembersLoop (fuel + 1)
    (e.1 :: byte (e.2.length % 256) :: byte (e.2.length / 256) :: (e.2 ++ rest)) members = _
  rw [parseMembersLoop_step, hlen]
  simp

theorem length_record (e : Byte × List Byte) : (record e).length = 3 + e.2.length := by
  simp [record]; omega

theorem length_records (recs : List (Byte × List Byte)) :
    (recs.flatMap record).length = encodedSize recs := by
  induction recs with
  | nil => rfl
  | cons e rest ih =>
    simp only [List.flatMap_cons, List.length_append, ih, length_record, encodedSize,
      List.map_cons, List.sum_cons]

theorem parseMembersLoop_records (recs : List (Byte × List Byte)) :
    ∀ (fuel : Nat) (rest : List Byte) (members : PackageMembers),
      (∀ r ∈ recs, r.2.length ≤ 65535) →
      parseMembersLoop (recs.length + fuel) (recs.flatMap record ++ rest) members =
        parseMembersLoop fuel rest (storeAll members recs) := by
  induction recs with
  | nil => intro fuel rest members _; simp [storeAll]
  | cons e tl ih =>
    intro fuel rest members h
    have he := h e (List.mem_cons_self _ _)
    have htl : ∀ r ∈ tl, r.2.length ≤ 65535 := fun r hr => h r (List.mem_cons_of_mem _ hr)
    have h1 : (e :: tl).length + fuel = (tl.length + fuel) + 1 := by
      simp only [List.length_cons]; omega
    rw [h1, List.flatMap_cons, List.append_assoc, parseMembersLoop_record _ _ he, ih _ _ _ htl]
    rfl

theorem length_le_encodedSize (recs : List (Byte × List Byte)) :
    recs.length ≤ encodedSize recs := by
  induction recs with
  | nil => exact le_rfl
  | cons e tl ih =>
    simp only [List.length_cons, encodedSize, List.map_cons, List.sum_cons] at *
    omega

theorem parseMembersLoop_nil (fuel : Nat) (members : PackageMembers) :
    parseMembersLoop fuel [] members = .ok members := by
  cases fuel <;> rfl

theorem parseMembers_records (recs : List (Byte × List Byte))
    (h : ∀ r ∈ recs, r.2.length ≤ 65535) :
    parseMembers (recs.flatMap record) = .ok (storeAll [] recs) := by
  unfold parseMembers
  have h1 := parseMembersLoop_records recs (encodedSize recs - recs.length) [] [] h
  have h2 : recs.length + (encodedSize recs - recs.length) = encodedSize recs :=
    Nat.add_sub_cancel' (length_le_encodedSize recs)
  rw [h2, List.append_nil, parseMembersLoop_nil] at h1
  rw [length_records, h1]

theorem record_val (e : Byte × List Byte) (he : e.2.length ≤ 65535) :
    (record e).map Fin.val =
      e.1.val :: e.2.length % 256 :: e.2.length / 256 :: e.2.map Fin.val := by
  simp only [record, List.map_cons, byte_val]
  have h1 : e.2.length % 256 % 256 = e.2.length % 256 := by omega
  have h2 : e.2.length / 256 % 256 = e.2.length / 256 := by omega
  rw [h1, h2]

theorem records_val (recs : List (Byte × List Byte)) (h : ∀ r ∈ recs, r.2.length ≤ 65535) :
    (recs.flatMap record).map Fin.val =
      recs.flatMap (fun r => r.1.val :: r.2.length % 256 :: r.2.length / 256 :: r.2.map Fin.val) := by
  induction recs with
  | nil => rfl
  | cons e tl ih =>
    have he := h e (List.mem_cons_self _ _)
    have htl : ∀ r ∈ tl, r.2.length ≤ 65535 := fun r hr => h r (List.mem_cons_of_mem _ hr)
    simp only [List.flatMap_cons, List.map_append, record_val e he, ih htl]

/-! ## Reading a frame -/

theorem ReadAtLeast_append (data tail : List Byte) :
    ReadAtLeast (data ++ tail) data.length = (.ok data, tail) := by
  unfold ReadAtLeast
  by_cases h : data.length = 0
  · have : data = [] := List.length_eq_zero.mp h
    subst this
    simp
  · simp [h]

theorem header_length (m d : Uint16) : (header m d).length = 6 := rfl

theorem parsePackageHead_header (m d : Uint16) :
    parsePackageHead (header m d) = .ok ⟨m, d, none⟩ := by
  unfold header
  rw [parsePackageHead_six]
  have hm := m.isLt
  have hd := d.isLt
  have e1 : uint16 ((byte (m.val % 256)).val + 256 * (byte (m.val / 256)).val) = m := by
    apply Fin.ext; rw [uint16_val, byte_val, byte_val]; omega
  have e2 : uint16 ((byte (d.val % 256)).val + 256 * (byte (d.val / 256)).val) = d := by
    apply Fin.ext; rw [uint16_val, byte_val, byte_val]; omega
  simp [e1, e2]

/-- What `ParsePackage` does on a stream that starts with a whole frame. -/
theorem ParsePackage_frame (m d : Uint16) (data tail : List Byte) (h : data.length = d.val) :
    ParsePackage (header m d ++ data ++ tail) =
      match parseMembers data with
      | .error err => (.error err, tail)
      | .panic => (.panic, tail)
      | .outOfFuel => (.outOfFuel, tail)
      | .ok members => (.ok ⟨m, d, some members⟩, tail) := by
  unfold ParsePackage
  have h1 : ReadAtLeast (header m d ++ data ++ tail) PACKAGE_HEAD_LEN.val =
      (.ok (header m d), data ++ tail) := by
    rw [List.append_assoc]
    exact ReadAtLeast_append (header m d) (data ++ tail)
  rw [h1]
  simp only [parsePackageHead_header]
  rw [← h, ReadAtLeast_append]

theorem parseMembersLoop_truncated {data : List Byte} (ht : Truncated data) :
    ∀ (fuel : Nat) (members : PackageMembers), data.length ≤ fuel →
      parseMembersLoop fuel data members = .error (Error.New "EOF") := by
  induction ht with
  | here k lo hi rest hgt =>
    intro fuel members hf
    cases fuel with
    | zero => simp at hf
    | succ f => rw [parseMembersLoop_step, if_pos hgt]
  | later k lo hi rest hle _ ih =>
    intro fuel members hf
    cases fuel with
    | zero => simp at hf
    | succ f =>
      rw [parseMembersLoop_step, if_neg (Nat.not_lt.mpr hle)]
      apply ih
      simp only [List.length_drop, List.length_cons] at *
      omega

/-! ## Writing -/

theorem bytesBuffer_accepting : Accepting bytesBuffer id :=
  ⟨fun _ _ => rfl, fun _ _ => rfl⟩

theorem Accepting.write_eq {σ : Type} {W : Writer σ} {received : σ → List Byte}
    (h : Accepting W received) (s : σ) (p : List Byte) :
    W.Write s p = ((W.Write s p).1, p.length, none) := by
  rw [← h.count s p]

theorem sumDataSize_foldl (range : List (Byte × PackageMember)) :
    ∀ acc : Nat,
      range.foldl
        (fun dataSize e =>
          match e.2 with
          | some member => dataSize + 3 + member.length
          | none => dataSize) acc =
      acc + (range.map (fun e => match e.2 with
          | some member => 3 + member.length
          | none => 0)).sum := by
  induction range with
  | nil => intro acc; simp
  | cons e rest ih =>
    intro acc
    obtain ⟨k, v⟩ := e
    cases v with
    | none =>
      rw [List.foldl_cons, List.map_cons, List.sum_cons, ih]
      show acc + _ = acc + (0 + _)
      omega
    | some v =>
      rw [List.foldl_cons, List.map_cons, List.sum_cons, ih]
      show acc + 3 + v.length + _ = acc + (3 + v.length + _)
      omega

theorem sumDataSize_eq (range : List (Byte × PackageMember)) :
    sumDataSize range = (range.map (fun e => match e.2 with
          | some member => 3 + member.length
          | none => 0)).sum := by
  unfold sumDataSize
  rw [sumDataSize_foldl, Nat.zero_add]

theorem sumDataSize_perm {r r' : List (Byte × PackageMember)} (h : r.Perm r') :
    sumDataSize r = sumDataSize r' := by
  rw [sumDataSize_eq, sumDataSize_eq]
  exact (h.map _).sum_eq

theorem sumDataSize_nonNil (T : List (Byte × List Byte)) :
    sumDataSize (nonNil T) = encodedSize T := by
  rw [sumDataSize_eq]
  simp [nonNil, encodedSize, List.map_map, Function.comp_def]

theorem encodedSize_perm {T T' : List (Byte × List Byte)} (h : T.Perm T') :
    encodedSize T = encodedSize T' :=
  (h.map _).sum_eq

theorem le_encodedSize {T : List (Byte × List Byte)} {r : Byte × List Byte} (h : r ∈ T) :
    3 + r.2.length ≤ encodedSize T := by
  induction T with
  | nil => simp at h
  | cons e tl ih =>
    simp only [encodedSize, List.map_cons, List.sum_cons] at *
    rcases List.mem_cons.mp h with heq | hin
    · subst heq; omega
    · have := ih hin; omega

/-- Every visiting order of a table of non-nil values is a table of non-nil
values, over a permutation of the same entries. -/
theorem perm_nonNil {range : List (Byte × PackageMember)} {T : List (Byte × List Byte)}
    (h : range.Perm (nonNil T)) : ∃ ord, ord.Perm T ∧ range = nonNil ord := by
  refine ⟨range.map (fun e => (e.1, e.2.getD [])), ?_, ?_⟩
  · have h1 := h.map (fun e : Byte × PackageMember => (e.1, e.2.getD []))
    have h2 : (nonNil T).map (fun e : Byte × PackageMember => (e.1, e.2.getD [])) = T := by
      simp [nonNil, List.map_map, Function.comp_def]
    rw [h2] at h1
    exact h1
  · unfold nonNil
    rw [List.map_map]
    symm
    conv => rhs; rw [← List.map_id range]
    apply List.map_congr_left
    intro e he
    have he' : e ∈ nonNil T := h.subset he
    obtain ⟨a, _, rfl⟩ := List.mem_map.mp he'
    rfl

theorem writeMembers_accepting {σ : Type} {W : Writer σ} {received : σ → List Byte}
    (hW : Accepting W received) (ord : List (Byte × List Byte)) :
    ∀ (s : σ) (n : Nat), (∀ r ∈ ord, r.2.length ≤ 65535) →
      (writeMembers W (nonNil ord) s n).2 = (n + encodedSize ord, none) ∧
      received (writeMembers W (nonNil ord) s n).1 = received s ++ ord.flatMap record := by
  induction ord with
  | nil => intro s n _; simp [nonNil, writeMembers, encodedSize]
  | cons e tl ih =>
    intro s n h
    obtain ⟨k, v⟩ := e
    have he : v.length ≤ 65535 := h (k, v) (List.mem_cons_self _ _)
    have htl : ∀ r ∈ tl, r.2.length ≤ 65535 := fun r hr => h r (List.mem_cons_of_mem _ hr)
    have hb1 : byte (uint16 v.length).val = byte (v.length % 256) := by
      apply Fin.ext; rw [byte_val, byte_val, uint16_of_le he]; omega
    have hb2 : byte ((uint16 v.length).val / 256) = byte (v.length / 256) := by
      rw [uint16_of_le he]
    show (writeMembers W ((k, some v) :: nonNil tl) s n).2 = _ ∧
      received (writeMembers W ((k, some v) :: nonNil tl) s n).1 = _
    rw [writeMembers]
    simp only [binaryWriteUint16, List.nil_append, hb1, hb2]
    rw [hW.write_eq (W.Write s [k]).1]
    simp only [List.length_cons, List.length_nil, ne_eq, not_true_eq_false, if_false,
      Option.getD_some]
    by_cases hv : v.length > 0
    · rw [if_pos hv, hW.write_eq]
      simp only []
      obtain ⟨h1, h2⟩ := ih (W.Write (W.Write (W.Write s [k]).1
        [byte (v.length % 256), byte (v.length / 256)]).1 v).1 (n + 1 + (0 + 1 + 1) + v.length) htl
      rw [h1, h2, hW.grows, hW.grows, hW.grows]
      constructor
      · simp only [encodedSize, List.map_cons, List.sum_cons]
        congr 1
        omega
      · simp [record, List.flatMap_cons]
    · rw [if_neg hv]
      have hv0 : v = [] := List.length_eq_zero.mp (by omega)
      subst hv0
      obtain ⟨h1, h2⟩ := ih (W.Write (W.Write s [k]).1
        [byte ([] : List Byte).length, byte (([] : List Byte).length / 256)]).1
        (n + 1 + (0 + 1 + 1)) htl
      simp only [List.length_nil, Nat.zero_mod, Nat.zero_div] at h1 h2 ⊢
      rw [h1, h2, hW.grows, hW.grows]
      constructor
      · simp only [encodedSize, List.map_cons, List.sum_cons, List.length_nil]
        congr 1
        omega
      · simp [record, List.flatMap_cons]

theorem byte_mod (n : Nat) : byte (n % 256) = byte n := by
  apply Fin.ext; rw [byte_val, byte_val]; omega

theorem headBytes_header (pack : Package) :
    pack.headBytes = .ok (header pack.MsgId pack.dataSize) := by
  rw [headBytes_eq, header, byte_mod, byte_mod]

theorem header_val (m d : Uint16) :
    (header m d).map Fin.val = [m.val % 256, m.val / 256, d.val % 256, d.val / 256, 0x9E, 0x1F] := by
  have hm := m.isLt
  have hd := d.isLt
  simp only [header, List.map_cons, List.map_nil, byte_val]
  have h1 : m.val % 256 % 256 = m.val % 256 := by omega
  have h2 : m.val / 256 % 256 = m.val / 256 := by omega
  have h3 : d.val % 256 % 256 = d.val % 256 := by omega
  have h4 : d.val / 256 % 256 = d.val / 256 := by omega
  rw [h1, h2, h3, h4]
  rfl

/-- The overflow guard of `Write`: the call fails before touching the sink
exactly when the first loop counts more than 65535 bytes. -/
theorem Write_overflow {σ : Type} (W : Writer σ) (m d0 : Uint16) (T : PackageMembers)
    (range₁ range₂ : List (Byte × PackageMember)) (s : σ)
    (h : sumDataSize range₁ > 65535) :
    Package.Write W ⟨m, d0, some T⟩ range₁ range₂ s =
      ⟨⟨m, d0, some T⟩, s, some (0, some (Error.New
        ("Packet size overflow, datasize: " ++ toString (sumDataSize range₁))))⟩ := by
  simp [Package.Write, PACKAGE_MAX_LENGTH, h]

/-- When the guard lets the call through, the header is written first and
the member loop runs from the count the sink reported for the header. -/
theorem Write_pass {σ : Type} (W : Writer σ) (m d0 : Uint16) (T : PackageMembers)
    (range₁ range₂ : List (Byte × PackageMember)) (s : σ)
    (h : sumDataSize range₁ ≤ 65535) :
    Package.Write W ⟨m, d0, some T⟩ range₁ range₂ s =
      match W.Write s (header m (uint16 (sumDataSize range₁))) with
      | (s1, _, some err) => ⟨⟨m, uint16 (sumDataSize range₁), some T⟩, s1, some (0, some err)⟩
      | (s1, tn, none) =>
        ⟨⟨m, uint16 (sumDataSize range₁), some T⟩, (writeMembers W range₂ s1 tn).1,
          some (writeMembers W range₂ s1 tn).2⟩ := by
  have h' : ¬ sumDataSize range₁ > PACKAGE_MAX_LENGTH := by
    unfold PACKAGE_MAX_LENGTH; omega
  simp only [Package.Write, h', if_false, headBytes_header]

theorem Write_accepting {σ : Type} {W : Writer σ} {received : σ → List Byte}
    (hW : Accepting W received) (m d0 : Uint16) (T : PackageMembers)
    (Tv ord : List (Byte × List Byte)) (range₁ : List (Byte × PackageMember))
    (h₁ : range₁.Perm (nonNil Tv)) (h₂ : ord.Perm Tv) (hS : encodedSize Tv ≤ 65535) (s : σ) :
    (Package.Write W ⟨m, d0, some T⟩ range₁ (nonNil ord) s).pack =
        ⟨m, uint16 (encodedSize Tv), some T⟩ ∧
    (Package.Write W ⟨m, d0, some T⟩ range₁ (nonNil ord) s).ret =
        some (6 + encodedSize Tv, none) ∧
    received (Package.Write W ⟨m, d0, some T⟩ range₁ (nonNil ord) s).writer =
        received s ++ header m (uint16 (encodedSize Tv)) ++ ord.flatMap record := by
  have hsum : sumDataSize range₁ = encodedSize Tv := by
    rw [sumDataSize_perm h₁, sumDataSize_nonNil]
  have hord : ∀ r ∈ ord, r.2.length ≤ 65535 := by
    intro r hr
    have := le_encodedSize (h₂.subset hr)
    omega
  rw [Write_pass W m d0 T range₁ (nonNil ord) s (by omega), hsum, hW.write_eq]
  obtain ⟨h1, h2⟩ := writeMembers_accepting hW ord
    (W.Write s (header m (uint16 (encodedSize Tv)))).1
    (header m (uint16 (encodedSize Tv))).length hord
  refine ⟨rfl, ?_, ?_⟩
  · show some (writeMembers W (nonNil ord) _ _).2 = _
    rw [h1, header_length, encodedSize_perm h₂]
  · show received (writeMembers W (nonNil ord) _ _).1 = _
    rw [h2, hW.grows]

/-- The guard of `Write` on a table of non-nil values and an accepting sink:
the call fails with the size-overflow error, with count 0 and the sink
untouched, exactly when the encoded size exceeds 65535. -/
theorem Write_overflow_iff_nonNil {σ : Type} {W : Writer σ} {received : σ → List Byte}
    (hW : Accepting W received) (m d0 : Uint16) (Tv : List (Byte × List Byte))
    (range₁ range₂ : List (Byte × PackageMember))
    (h₁ : range₁.Perm (nonNil Tv)) (h₂ : range₂.Perm (nonNil Tv)) (s : σ) :
    ((∃ err, (Package.Write W ⟨m, d0, some (nonNil Tv)⟩ range₁ range₂ s).ret =
        some (0, some err)) ↔ encodedSize Tv > 65535) ∧
    (encodedSize Tv > 65535 →
      Package.Write W ⟨m, d0, some (nonNil Tv)⟩ range₁ range₂ s =
        ⟨⟨m, d0, some (nonNil Tv)⟩, s, some (0, some (Error.New
          ("Packet size overflow, datasize: " ++ toString (encodedSize Tv))))⟩) := by
  have hsum : sumDataSize range₁ = encodedSize Tv := by
    rw [sumDataSize_perm h₁, sumDataSize_nonNil]
  have hov : encodedSize Tv > 65535 →
      Package.Write W ⟨m, d0, some (nonNil Tv)⟩ range₁ range₂ s =
        ⟨⟨m, d0, some (nonNil Tv)⟩, s, some (0, some (Error.New
          ("Packet size overflow, datasize: " ++ toString (encodedSize Tv))))⟩ := by
    intro h
    rw [Write_overflow W m d0 _ range₁ range₂ s (by omega), hsum]
  refine ⟨⟨?_, fun h => ⟨_, by rw [hov h]⟩⟩, hov⟩
  rintro ⟨err, herr⟩
  by_contra hle
  obtain ⟨ord, hperm, hord⟩ := perm_nonNil h₂
  subst hord
  have h := (Write_accepting hW m d0 (nonNil Tv) Tv ord range₁ h₁ hperm (by omega) s).2.1
  rw [h] at herr
  simp at herr

/-- The member loop on a nil member followed by a non-empty one: the nil
member is written as a record of three bytes. -/
theorem writeMembers_nil_first (a b : Byte) (v : List Byte) (hv : 0 < v.length)
    (s : List Byte) (n : Nat) :
    writeMembers bytesBuffer [(a, none), (b, some v)] s n =
      (s ++ [a, 0, 0] ++ b :: byte (uint16 v.length).val ::
        byte ((uint16 v.length).val / 256) :: v, n + 1 + 2 + 1 + 2 + v.length, none) := by
  have hb : byte (uint16 0).val = 0 ∧ byte ((uint16 0).val / 256) = 0 := by decide
  simp only [writeMembers, bytesBuffer, binaryWriteUint16, hb.1, hb.2, List.nil_append,
    List.length_cons, List.length_nil, ne_eq, not_true_eq_false, if_false, Nat.lt_irrefl,
    gt_iff_lt, hv, if_true, Option.getD_some, List.append_assoc, List.cons_append]

/-- The member loop on a non-empty member followed by a nil one. -/
theorem writeMembers_nil_last (a b : Byte) (v : List Byte) (hv : 0 < v.length)
    (s : List Byte) (n : Nat) :
    writeMembers bytesBuffer [(b, some v), (a, none)] s n =
      (s ++ b :: byte (uint16 v.length).val ::
        byte ((uint16 v.length).val / 256) :: (v ++ [a, 0, 0]), n + 1 + 2 + v.length + 1 + 2,
        none) := by
  have hb : byte (uint16 0).val = 0 ∧ byte ((uint16 0).val / 256) = 0 := by decide
  simp only [writeMembers, bytesBuffer, binaryWriteUint16, hb.1, hb.2, List.nil_append,
    List.length_cons, List.length_nil, ne_eq, not_true_eq_false, if_false, Nat.lt_irrefl,
    gt_iff_lt, hv, if_true, Option.getD_some, List.append_assoc, List.cons_append]

theorem sumDataSize_nil_pair (a b : Byte) (v : List Byte) :
    sumDataSize [(a, none), (b, some v)] = 3 + v.length ∧
    sumDataSize [(b, some v), (a, none)] = 3 + v.length := by
  constructor
  · rw [sumDataSize_eq]
    show 0 + (3 + v.length + 0) = 3 + v.length
    omega
  · rw [sumDataSize_eq]
    show 3 + v.length + (0 + 0) = 3 + v.length
    omega

/-- What `Write` does on a table holding one nil member and one member of
`len` bytes with `3 + len = 65535`: the guard passes, the header declares
65535 bytes, and 65538 bytes follow it. -/
theorem Write_nil_pair (a b : Byte) (v : List Byte) (hv : 3 + v.length = 65535)
    (T : PackageMembers) (range₁ range₂ : List (Byte × PackageMember))
    (h₁ : range₁ = [(a, none), (b, some v)] ∨ range₁ = [(b, some v), (a, none)])
    (h₂ : range₂ = [(a, none), (b, some v)] ∨ range₂ = [(b, some v), (a, none)]) :
    (Package.Write bytesBuffer ⟨0, 0, some T⟩ range₁ range₂ []).ret = some (65544, none) ∧
    (Package.Write bytesBuffer ⟨0, 0, some T⟩ range₁ range₂ []).pack.dataSize = 65535 ∧
    (Package.Write bytesBuffer ⟨0, 0, some T⟩ range₁ range₂ []).writer.length = 65544 ∧
    (range₂ = [(a, none), (b, some v)] →
      (Package.Write bytesBuffer ⟨0, 0, some T⟩ range₁ range₂ []).writer =
        [0, 0, 0xFF, 0xFF, 0x9E, 0x1F, a, 0, 0, b, 0xFC, 0xFF] ++ v) := by
  have hpos : 0 < v.length := by omega
  have hl : v.length = 65532 := by omega
  have hhdr : header 0 (uint16 65535) = [0, 0, 0xFF, 0xFF, 0x9E, 0x1F] := by decide
  have hb : byte (uint16 65532).val = 0xFC ∧ byte ((uint16 65532).val / 256) = 0xFF := by
    decide
  have hs : sumDataSize range₁ = 65535 := by
    rcases h₁ with h | h <;> rw [h]
    · rw [(sumDataSize_nil_pair a b v).1, hv]
    · rw [(sumDataSize_nil_pair a b v).2, hv]
  have key : Package.Write bytesBuffer ⟨0, 0, some T⟩ range₁ range₂ [] =
        ⟨⟨0, 65535, some T⟩,
          (writeMembers bytesBuffer range₂ [0, 0, 0xFF, 0xFF, 0x9E, 0x1F] 6).1,
          some (writeMembers bytesBuffer range₂ [0, 0, 0xFF, 0xFF, 0x9E, 0x1F] 6).2⟩ := by
    rw [Write_pass bytesBuffer 0 0 T range₁ range₂ [] (by omega), hs, hhdr]
    rfl
  have w1 := writeMembers_nil_first a b v hpos [0, 0, 0xFF, 0xFF, 0x9E, 0x1F] 6
  have w2 := writeMembers_nil_last a b v hpos [0, 0, 0xFF, 0xFF, 0x9E, 0x1F] 6
  rw [hl, hb.1, hb.2] at w1 w2
  rw [key]
  refine ⟨?_, rfl, ?_, ?_⟩
  · rcases h₂ with h | h <;> rw [h]
    · rw [w1]
    · rw [w2]
  · rcases h₂ with h | h <;> rw [h]
    · rw [w1]; simp [hl]
    · rw [w2]; simp [hl]
  · intro h
    rw [h, w1]
    rfl

theorem perm_pair {α : Type} {x y : α} {l : List α} (h : l.Perm [x, y]) :
    l = [x, y] ∨ l = [y, x] := by
  have hl := h.length_eq
  match l, hl, h with
  | [p, q], _, h =>
    have hp : p ∈ [x, y] := h.subset (List.mem_cons_self _ _)
    rcases List.mem_cons.mp hp with hpx | hpy
    · subst hpx
      have := List.perm_singleton.mp h.cons_inv
      left; rw [this]
    · have hpy' : p = y := by simpa using hpy
      subst hpy'
      have h2 : [p, q].Perm [p, x] := h.trans (List.Perm.swap p x [])
      have := List.perm_singleton.mp h2.cons_inv
      right; rw [this]

theorem claimedSize_nil_pair (a b : Byte) (v : List Byte) :
    ([(a, none), (b, some v)].map (fun e => 3 + (e.2.getD []).length)).sum
      = 3 + (3 + v.length) := by
  show 3 + 0 + (3 + v.length + 0) = 3 + (3 + v.length)
  omega

/-! ## The accessors -/

theorem AddStringMember_eq (pack : Package) (k : Byte) (str : List Byte) (nilMap : Bool) :
    pack.AddStringMember k str nilMap = pack.AddMember k (some str) nilMap := rfl

/-- The map assignment on a made map: the entry is stored. -/
theorem AddMember_made (m d : Uint16) (T : PackageMembers) (k : Byte) (v : PackageMember) :
    Package.AddMember ⟨m, d, some T⟩ k v false =
      .ok ⟨m, d, some (PackageMembers.store T k v)⟩ := rfl

/-- The map assignment on the nil map, or through a nil pointer: a panic. -/
theorem AddMember_nil (pack : Package) (k : Byte) (v : PackageMember) :
    pack.AddMember k v true = .panic := by
  unfold Package.AddMember
  cases pack.members <;> rfl

/-- Two stores under one key: what the table holds afterwards. -/
theorem store_store (T : PackageMembers) (hv : T.Valid) (k : Byte) (v1 v2 : PackageMember) :
    PackageMembers.lookup (PackageMembers.store (PackageMembers.store T k v1) k v2) k = some v2 ∧
    (PackageMembers.store (PackageMembers.store T k v1) k v2).Valid ∧
    ((PackageMembers.store (PackageMembers.store T k v1) k v2).map Prod.fst).count k = 1 ∧
    (∀ k', k' ≠ k →
      PackageMembers.lookup (PackageMembers.store (PackageMembers.store T k v1) k v2) k' =
        PackageMembers.lookup T k') ∧
    (v1 ≠ v2 → ∀ k',
      PackageMembers.lookup (PackageMembers.store (PackageMembers.store T k v1) k v2) k' =
        some v1 → PackageMembers.lookup T k' = some v1) := by
  have hval := valid_store _ k v2 (valid_store T k v1 hv)
  have hlk : PackageMembers.lookup
      (PackageMembers.store (PackageMembers.store T k v1) k v2) k = some v2 := by
    rw [lookup_store, if_pos rfl]
  have hother : ∀ k', k' ≠ k →
      PackageMembers.lookup (PackageMembers.store (PackageMembers.store T k v1) k v2) k' =
        PackageMembers.lookup T k' := by
    intro k' hk
    rw [lookup_store, if_neg (fun h => hk h.symm), lookup_store, if_neg (fun h => hk h.symm)]
  refine ⟨hlk, hval, ?_, hother, ?_⟩
  · apply List.count_eq_one_of_mem hval
    by_contra hnot
    rw [← lookup_eq_none_iff, hlk] at hnot
    exact Option.noConfusion hnot
  · intro hne k' hk'
    by_cases hk : k' = k
    · subst hk
      rw [hlk] at hk'
      exact absurd (Option.some.inj hk').symm hne
    · rw [hother k' hk] at hk'
      exact hk'

/-! ## Framing -/

theorem ReadAtLeast_short (s : List Byte) (n : Nat) (h : s.length < n) :
    ∃ err, ReadAtLeast s n = (.error err, []) := by
  unfold ReadAtLeast
  have h0 : ¬ n = 0 := by omega
  have h1 : ¬ n ≤ s.length := by omega
  simp only [h0, h1, if_false]
  by_cases h2 : s.length = 0
  · exact ⟨_, by rw [if_pos h2]⟩
  · exact ⟨_, by rw [if_neg h2]⟩

theorem ReadAtLeast_enough (s : List Byte) (n : Nat) (h : n ≤ s.length) :
    ReadAtLeast s n = (.ok (s.take n), s.drop n) := by
  unfold ReadAtLeast
  by_cases h0 : n = 0
  · subst h0; simp
  · simp [h0, h]

/-- `ParsePackage` on a stream of at least six bytes. -/
theorem ParsePackage_six (b0 b1 b2 b3 b4 b5 : Byte) (rest : List Byte) :
    ParsePackage (b0 :: b1 :: b2 :: b3 :: b4 :: b5 :: rest) =
      if b4 ≠ 0x9E ∨ b5 ≠ 0x1F then
        (.error (Error.New ("Head error! data: " ++ hexBytes [b0, b1, b2, b3, b4, b5])), rest)
      else
        match ReadAtLeast rest (b2.val + 256 * b3.val) with
        | (.error err, reader) => (.error err, reader)
        | (.ok data, reader) =>
          match parseMembers data with
          | .error err => (.error err, reader)
          | .panic => (.panic, reader)
          | .outOfFuel => (.outOfFuel, reader)
          | .ok members =>
            (.ok ⟨uint16 (b0.val + 256 * b1.val), uint16 (b2.val + 256 * b3.val),
              some members⟩, reader) := by
  unfold ParsePackage
  have h1 : ReadAtLeast (b0 :: b1 :: b2 :: b3 :: b4 :: b5 :: rest) PACKAGE_HEAD_LEN.val =
      (.ok [b0, b1, b2, b3, b4, b5], rest) :=
    ReadAtLeast_append [b0, b1, b2, b3, b4, b5] rest
  rw [h1]
  simp only [parsePackageHead_six]
  by_cases h : b4 ≠ 0x9E ∨ b5 ≠ 0x1F
  · simp only [if_pos h]
  · simp only [if_neg h, uint16_bytes]

/-- `ParsePackage` on a stream that holds a valid header and the whole
payload the header declares. -/
theorem ParsePackage_enough (b0 b1 b2 b3 : Byte) (rest : List Byte)
    (h : b2.val + 256 * b3.val ≤ rest.length) :
    ParsePackage (b0 :: b1 :: b2 :: b3 :: 0x9E :: 0x1F :: rest) =
      match parseMembers (rest.take (b2.val + 256 * b3.val)) with
      | .error err => (.error err, rest.drop (b2.val + 256 * b3.val))
      | .panic => (.panic, rest.drop (b2.val + 256 * b3.val))
      | .outOfFuel => (.outOfFuel, rest.drop (b2.val + 256 * b3.val))
      | .ok members =>
        (.ok ⟨uint16 (b0.val + 256 * b1.val), uint16 (b2.val + 256 * b3.val),
          some members⟩, rest.drop (b2.val + 256 * b3.val)) := by
  rw [ParsePackage_six, if_neg (by simp), ReadAtLeast_enough rest _ h]

theorem length_ge_six (s : List Byte) (h : 6 ≤ s.length) :
    ∃ b0 b1 b2 b3 b4 b5 rest, s = b0 :: b1 :: b2 :: b3 :: b4 :: b5 :: rest := by
  match s, h with
  | b0 :: b1 :: b2 :: b3 :: b4 :: b5 :: rest, _ => exact ⟨b0, b1, b2, b3, b4, b5, rest, rfl⟩
  | [], h => simp at h
  | [_], h => simp at h
  | [_, _], h => simp at h
  | [_, _, _], h => simp at h
  | [_, _, _, _], h => simp at h
  | [_, _, _, _, _], h => simp at h

theorem ParsePackage_short (s : List Byte) (h : s.length < 6) :
    ∃ err, ParsePackage s = (.error err, []) := by
  unfold ParsePackage
  obtain ⟨err, he⟩ := ReadAtLeast_short s PACKAGE_HEAD_LEN.val h
  exact ⟨err, by rw [he]⟩

/-! ## Decoding, the converse -/

theorem record_of_bytes (k lo hi : Byte) (rest : List Byte)
    (h : lo.val + 256 * hi.val ≤ rest.length) :
    record (k, rest.take (lo.val + 256 * hi.val)) =
      k :: lo :: hi :: rest.take (lo.val + 256 * hi.val) ∧
    (rest.take (lo.val + 256 * hi.val)).length ≤ 65535 := by
  have hlo := lo.isLt
  have hhi := hi.isLt
  have hl : (rest.take (lo.val + 256 * hi.val)).length = lo.val + 256 * hi.val := by
    rw [List.length_take]; omega
  constructor
  · unfold record
    simp only [hl]
    have e1 : byte ((lo.val + 256 * hi.val) % 256) = lo := by
      apply Fin.ext; rw [byte_val]; omega
    have e2 : byte ((lo.val + 256 * hi.val) / 256) = hi := by
      apply Fin.ext; rw [byte_val]; omega
    rw [e1, e2]
  · rw [hl]; omega

/-- A buffer the loop accepts is a concatenation of complete records, and the
table returned is the one obtained by storing them in order. -/
theorem parseMembersLoop_ok (fuel : Nat) :
    ∀ (buf : List Byte) (members T : PackageMembers),
      parseMembersLoop fuel buf members = .ok T →
      ∃ recs : List (Byte × List Byte), (∀ r ∈ recs, r.2.length ≤ 65535) ∧
        buf = recs.flatMap record ∧ T = storeAll members recs := by
  induction fuel with
  | zero =>
    intro buf members T h
    match buf, h with
    | [], h =>
      exact ⟨[], by simp, rfl, (Result.ok.inj h).symm⟩
    | _ :: _, h => exact Result.noConfusion h
  | succ fuel ih =>
    intro buf members T h
    match buf, h with
    | [], h => exact ⟨[], by simp, rfl, (Result.ok.inj h).symm⟩
    | [_], h => exact Result.noConfusion h
    | [_, _], h => exact Result.noConfusion h
    | k :: lo :: hi :: rest, h =>
      rw [parseMembersLoop_step] at h
      by_cases hgt : lo.val + 256 * hi.val > rest.length
      · rw [if_pos hgt] at h
        exact Result.noConfusion h
      · rw [if_neg hgt] at h
        obtain ⟨recs, hlen, hbuf, hT⟩ := ih _ _ _ h
        have hle : lo.val + 256 * hi.val ≤ rest.length := by omega
        obtain ⟨hrec, hrl⟩ := record_of_bytes k lo hi rest hle
        refine ⟨(k, rest.take (lo.val + 256 * hi.val)) :: recs, ?_, ?_, ?_⟩
        · intro r hr
          rcases List.mem_cons.mp hr with heq | hin
          · rw [heq]; exact hrl
          · exact hlen r hin
        · rw [List.flatMap_cons, hrec, ← hbuf]
          simp only [List.cons_append, List.take_append_drop]
        · rw [hT]; rfl

theorem parseMembers_ok {data : List Byte} {T : PackageMembers}
    (h : parseMembers data = .ok T) :
    ∃ recs : List (Byte × List Byte), (∀ r ∈ recs, r.2.length ≤ 65535) ∧
      data = recs.flatMap record ∧ T = storeAll [] recs :=
  parseMembersLoop_ok _ _ _ _ h

/-- Every iteration consumes at least three bytes: a third of the buffer
length, rounded up, bounds the number of iterations. -/
theorem parseMembersLoop_third (fuel : Nat) :
    ∀ (buf : List Byte) (members : PackageMembers), buf.length ≤ 3 * fuel →
      parseMembersLoop fuel buf members = parseMembersLoop buf.length buf members := by
  induction fuel with
  | zero =>
    intro buf members h
    have : buf = [] := List.length_eq_zero.mp (by omega)
    subst this
    rfl
  | succ fuel ih =>
    intro buf members h
    match buf, h with
    | [], _ => rfl
    | [_], _ => rfl
    | [_, _], _ => rfl
    | k :: lo :: hi :: rest, h =>
      have hl : (k :: lo :: hi :: rest).length = (rest.length + 2) + 1 := rfl
      rw [hl, parseMembersLoop_step, parseMembersLoop_step]
      split
      · rfl
      · have hd : (rest.drop (lo.val + 256 * hi.val)).length ≤ 3 * fuel := by
          simp only [List.length_drop, List.length_cons] at *; omega
        rw [ih _ _ hd]
        apply parseMembersLoop_fuel
        · exact le_rfl
        · simp only [List.length_drop]; omega

/-- Stray bytes after the last complete record are rejected. -/
theorem parseMembers_stray (recs : List (Byte × List Byte))
    (h : ∀ r ∈ recs, r.2.length ≤ 65535) (b c : Byte) :
    parseMembers (recs.flatMap record ++ [b]) = .error Error.EOF ∧
    parseMembers (recs.flatMap record ++ [b, c]) = .error Error.ErrUnexpectedEOF := by
  have hle := length_le_encodedSize recs
  constructor
  · unfold parseMembers
    have hl : (recs.flatMap record ++ [b]).length =
        recs.length + ((encodedSize recs - recs.length) + 1) := by
      rw [List.length_append, length_records]
      simp only [List.length_cons, List.length_nil]
      omega
    rw [hl, parseMembersLoop_records recs _ [b] [] h]
    rfl
  · unfold parseMembers
    have hl : (recs.flatMap record ++ [b, c]).length =
        recs.length + ((encodedSize recs + 1 - recs.length) + 1) := by
      rw [List.length_append, length_records]
      simp only [List.length_cons, List.length_nil]
      omega
    rw [hl, parseMembersLoop_records recs _ [b, c] [] h]
    rfl

theorem parseMembersLoop_no_panic (fuel : Nat) :
    ∀ (buf : List Byte) (members : PackageMembers),
      parseMembersLoop fuel buf members ≠ .panic := by
  induction fuel with
  | zero =>
    intro buf members
    cases buf <;> simp [parseMembersLoop]
  | succ fuel ih =>
    intro buf members
    match buf with
    | [] => simp [parseMembersLoop]
    | [_] => simp [parseMembersLoop, binaryReadUint16]
    | [_, _] => simp [parseMembersLoop, binaryReadUint16]
    | k :: lo :: hi :: rest =>
      rw [parseMembersLoop_step]
      split
      · simp
      · exact ih _ _

/-! ## The size of a table -/

theorem tableSize_append (T T' : PackageMembers) :
    tableSize (T ++ T') = tableSize T + tableSize T' := by
  simp [tableSize, List.map_append, List.sum_append]

theorem tableSize_nonNil (recs : List (Byte × List Byte)) :
    tableSize (nonNil recs) = encodedSize recs := by
  simp [tableSize, nonNil, encodedSize, List.map_map, Function.comp_def]

theorem tableSize_store_le (T : PackageMembers) (k : Byte) (v : PackageMember) :
    tableSize (PackageMembers.store T k v) ≤ tableSize T + (3 + (v.getD []).length) := by
  induction T with
  | nil => simp [PackageMembers.store, tableSize]
  | cons e rest ih =>
    obtain ⟨k0, v0⟩ := e
    by_cases h0 : k0 = k
    · simp only [PackageMembers.store, h0, if_true, tableSize, List.map_cons, List.sum_cons]
      omega
    · simp only [PackageMembers.store, h0, if_false, tableSize, List.map_cons,
        List.sum_cons] at *
      omega

theorem tableSize_storeAll_le (recs : List (Byte × List Byte)) :
    ∀ T : PackageMembers, tableSize (storeAll T recs) ≤ tableSize T + encodedSize recs := by
  induction recs with
  | nil => intro T; simp [storeAll, encodedSize]
  | cons e tl ih =>
    intro T
    have h1 := ih (PackageMembers.store T e.1 (some e.2))
    have h2 := tableSize_store_le T e.1 (some e.2)
    have h3 : encodedSize (e :: tl) = 3 + e.2.length + encodedSize tl := by
      simp [encodedSize]
    have h4 : storeAll T (e :: tl) = storeAll (PackageMembers.store T e.1 (some e.2)) tl := rfl
    rw [h3, h4]
    simp only [Option.getD_some] at h2
    omega

theorem store_absent (T : PackageMembers) (k : Byte) (v : PackageMember)
    (h : k ∉ T.map Prod.fst) : PackageMembers.store T k v = T ++ [(k, v)] := by
  induction T with
  | nil => rfl
  | cons e rest ih =>
    obtain ⟨k0, v0⟩ := e
    simp only [List.map_cons, List.mem_cons, not_or] at h
    have h0 : ¬ k0 = k := fun hk => h.1 hk.symm
    simp only [PackageMembers.store, h0, if_false, ih h.2, List.cons_append]

/-- Records with pairwise distinct keys, none of them in the table yet, are
stored as so many new entries. -/
theorem storeAll_nodup (recs : List (Byte × List Byte)) :
    ∀ T : PackageMembers, (T.map Prod.fst ++ recs.map Prod.fst).Nodup →
      storeAll T recs = T ++ nonNil recs := by
  induction recs with
  | nil => intro T _; simp [storeAll, nonNil]
  | cons e tl ih =>
    intro T h
    have hk : e.1 ∉ T.map Prod.fst := by
      intro hin
      have := (List.nodup_append.mp h).2.2
      exact this hin (by simp)
    have h4 : storeAll T (e :: tl) = storeAll (PackageMembers.store T e.1 (some e.2)) tl := rfl
    rw [h4, store_absent T e.1 (some e.2) hk, ih]
    · simp [nonNil]
    · simp only [List.map_append, List.map_cons, List.map_nil, List.append_assoc,
        List.singleton_append]
      exact h

/-- A stream `ParsePackage` accepts is a header followed by complete records
and by what is left unread. -/
theorem ParsePackage_ok {s : List Byte} {pack : Package}
    (h : (ParsePackage s).1 = .ok pack) :
    ∃ recs : List (Byte × List Byte), (∀ r ∈ recs, r.2.length ≤ 65535) ∧
      pack.members = some (storeAll [] recs) ∧
      s = header pack.MsgId pack.dataSize ++ recs.flatMap record ++ (ParsePackage s).2 ∧
      pack.dataSize.val = encodedSize recs := by
  by_cases hs : s.length < 6
  · obtain ⟨err, he⟩ := ParsePackage_short s hs
    rw [he] at h
    exact Result.noConfusion h
  · obtain ⟨b0, b1, b2, b3, b4, b5, rest, rfl⟩ := length_ge_six s (by omega)
    by_cases ht : b4 ≠ 0x9E ∨ b5 ≠ 0x1F
    · rw [ParsePackage_six, if_pos ht] at h
      exact Result.noConfusion h
    · have h4 : b4 = 0x9E := by
        by_contra hne; exact ht (Or.inl hne)
      have h5 : b5 = 0x1F := by
        by_contra hne; exact ht (Or.inr hne)
      subst h4 h5
      by_cases hlen : rest.length < b2.val + 256 * b3.val
      · rw [ParsePackage_six, if_neg ht] at h
        obtain ⟨err, he⟩ := ReadAtLeast_short rest _ hlen
        rw [he] at h
        exact Result.noConfusion h
      · have hle : b2.val + 256 * b3.val ≤ rest.length := by omega
        rw [ParsePackage_enough b0 b1 b2 b3 rest hle] at h ⊢
        cases hpm : parseMembers (rest.take (b2.val + 256 * b3.val)) with
        | error err => rw [hpm] at h; exact Result.noConfusion h
        | panic => rw [hpm] at h; exact Result.noConfusion h
        | outOfFuel => rw [hpm] at h; exact Result.noConfusion h
        | ok members =>
          rw [hpm] at h
          have hpk := Result.ok.inj h
          subst hpk
          obtain ⟨recs, hrl, hdata, hT⟩ := parseMembers_ok hpm
          have hb0 := b0.isLt
          have hb1 := b1.isLt
          have hb2 := b2.isLt
          have hb3 := b3.isLt
          have hhdr : header (uint16 (b0.val + 256 * b1.val)) (uint16 (b2.val + 256 * b3.val))
              = [b0, b1, b2, b3, 0x9E, 0x1F] := by
            unfold header
            rw [uint16_bytes, uint16_bytes]
            have e0 : byte ((b0.val + 256 * b1.val) % 256) = b0 := by
              apply Fin.ext; rw [byte_val]; omega
            have e1 : byte ((b0.val + 256 * b1.val) / 256) = b1 := by
              apply Fin.ext; rw [byte_val]; omega
            have e2 : byte ((b2.val + 256 * b3.val) % 256) = b2 := by
              apply Fin.ext; rw [byte_val]; omega
            have e3 : byte ((b2.val + 256 * b3.val) / 256) = b3 := by
              apply Fin.ext; rw [byte_val]; omega
            rw [e0, e1, e2, e3]
          refine ⟨recs, hrl, by rw [hT], ?_, ?_⟩
          · show _ = header (uint16 (b0.val + 256 * b1.val)) (uint16 (b2.val + 256 * b3.val))
              ++ _ ++ rest.drop (b2.val + 256 * b3.val)
            rw [hhdr, ← hdata]
            simp only [List.cons_append, List.nil_append, List.take_append_drop]
          · show (uint16 (b2.val + 256 * b3.val)).val = _
            rw [uint16_bytes, ← length_records, ← hdata, List.length_take]
            omega

/-! ## The buffered body -/

theorem ParsePackageForHtml_ok (m : Uint16) (b : List Byte) (T : PackageMembers)
    (h : parseMembers b = .ok T) :
    ParsePackageForHtml m b = .ok ⟨m, uint16 b.length, some T⟩ := by
  simp only [ParsePackageForHtml, h]

theorem parseMembers_single (e : Byte × List Byte) (h : e.2.length ≤ 65535) :
    parseMembers (record e) = .ok [(e.1, some e.2)] := by
  have h1 := parseMembers_records [e] (by
    intro r hr
    rw [List.mem_singleton] at hr
    rw [hr]; exact h)
  simp only [List.flatMap_cons, List.flatMap_nil, List.append_nil] at h1
  rw [h1]
  rfl

/-- The buffered-body path on a single record with a value of 65535 bytes. -/
theorem ParsePackageForHtml_long (m : Uint16) (k : Byte) (v : List Byte)
    (h : v.length = 65535) :
    (record (k, v)).length = 65538 ∧
    parseMembers (record (k, v)) = .ok [(k, some v)] ∧
    ParsePackageForHtml m (record (k, v)) = .ok ⟨m, 2, some [(k, some v)]⟩ := by
  have hl : (record (k, v)).length = 65538 := by
    rw [length_record]; simp only [h]
  have hp : parseMembers (record (k, v)) = .ok [(k, some v)] :=
    parseMembers_single (k, v) (by simp only [h]; decide)
  refine ⟨hl, hp, ?_⟩
  rw [ParsePackageForHtml_ok m _ _ hp, hl]
  rfl

/-! ## The claims -/

/-- Claim C1 (round trip).  For every message id `m` and every member table of
non-nil values `nonNil Tv` (keys pairwise distinct) whose encoded size
`S = encodedSize Tv` is at most 65535, and for all orders `range₁`, `range₂`
in which the two loops of `Write` may visit the table: `Write` into an empty
`bytes.Buffer` returns `(6 + S, nil)`, and `ParsePackage` on that buffer
succeeds, reads it to the end, and returns a package with `MsgId = m`,
`dataSize = S` and a member table that has, under every key, exactly the
entry of the original table. -/
theorem C1_round_trip (m d0 : Uint16) (Tv : List (Byte × List Byte))
    (range₁ range₂ : List (Byte × PackageMember))
    (hv : (nonNil Tv).Valid)
    (h₁ : range₁.Perm (nonNil Tv)) (h₂ : range₂.Perm (nonNil Tv))
    (hS : encodedSize Tv ≤ 65535) :
    (Package.Write bytesBuffer ⟨m, d0, some (nonNil Tv)⟩ range₁ range₂ []).ret =
        some (6 + encodedSize Tv, none) ∧
    ∃ pack T',
      ParsePackage (Package.Write bytesBuffer ⟨m, d0, some (nonNil Tv)⟩ range₁ range₂ []).writer
        = (.ok pack, []) ∧
      pack.MsgId = m ∧ pack.dataSize.val = encodedSize Tv ∧
      pack.members = some T' ∧ T'.Valid ∧
      ∀ k, PackageMembers.lookup T' k = PackageMembers.lookup (nonNil Tv) k := by
  obtain ⟨ord, hperm, hord⟩ := perm_nonNil h₂
  subst hord
  obtain ⟨_, hret, hw⟩ :=
    Write_accepting bytesBuffer_accepting m d0 (nonNil Tv) Tv ord range₁ h₁ hperm hS []
  have hlen : ∀ r ∈ ord, r.2.length ≤ 65535 := by
    intro r hr
    have := le_encodedSize (hperm.subset hr)
    omega
  refine ⟨hret, ⟨m, uint16 (encodedSize Tv), some (storeAll [] ord)⟩, storeAll [] ord,
    ?_, rfl, uint16_of_le hS, rfl, valid_storeAll ord [] List.nodup_nil, ?_⟩
  · have hw' : (Package.Write bytesBuffer ⟨m, d0, some (nonNil Tv)⟩ range₁ (nonNil ord) []).writer
        = header m (uint16 (encodedSize Tv)) ++ ord.flatMap record ++ [] := by
      rw [List.append_nil]
      exact hw
    rw [hw', ParsePackage_frame m (uint16 (encodedSize Tv)) (ord.flatMap record) []
      (by rw [length_records, uint16_of_le hS, encodedSize_perm hperm]),
      parseMembers_records ord hlen]
  · intro k
    rw [lookup_storeAll]
    cases hfind : List.find? (fun r => decide (r.1 = k)) ord.reverse with
    | some r =>
      have hk : r.1 = k := by
        have := List.find?_some hfind
        simpa using this
      have hmem : r ∈ Tv :=
        hperm.subset (List.mem_reverse.mp (List.mem_of_find?_eq_some hfind))
      have hmem' : (k, some r.2) ∈ nonNil Tv :=
        List.mem_map.mpr ⟨r, hmem, by rw [hk]⟩
      rw [lookup_of_mem (nonNil Tv) hv k (some r.2) hmem']
    | none =>
      symm
      show PackageMembers.lookup (nonNil Tv) k = none
      rw [lookup_eq_none_iff]
      intro hin
      obtain ⟨e, he, hek⟩ := List.mem_map.mp hin
      obtain ⟨r, hr, rfl⟩ := List.mem_map.mp he
      have hr' : r ∈ ord.reverse := List.mem_reverse.mpr (hperm.symm.subset hr)
      have := List.find?_eq_none.mp hfind r hr'
      simp at this
      exact this hek

/-- Witness of C1 at the package of `TestPackage`, the second loop visiting
the table backwards. -/
theorem C1_round_trip_witness :
    ((nonNil testMembers).Valid ∧ (nonNil testMembers).Perm (nonNil testMembers) ∧
      (nonNil testMembers).reverse.Perm (nonNil testMembers) ∧
      encodedSize testMembers ≤ 65535) ∧
    ((Package.Write bytesBuffer ⟨0x2211, 0, some (nonNil testMembers)⟩ (nonNil testMembers)
        (nonNil testMembers).reverse []).ret = some (6 + encodedSize testMembers, none) ∧
    ∃ pack T',
      ParsePackage (Package.Write bytesBuffer ⟨0x2211, 0, some (nonNil testMembers)⟩
        (nonNil testMembers) (nonNil testMembers).reverse []).writer = (.ok pack, []) ∧
      pack.MsgId = 0x2211 ∧ pack.dataSize.val = encodedSize testMembers ∧
      pack.members = some T' ∧ T'.Valid ∧
      ∀ k, PackageMembers.lookup T' k = PackageMembers.lookup (nonNil testMembers) k) :=
  ⟨⟨by decide, List.Perm.refl _, List.reverse_perm _, by decide⟩,
    C1_round_trip 0x2211 0 testMembers (nonNil testMembers) (nonNil testMembers).reverse
      (by decide) (List.Perm.refl _) (List.reverse_perm _) (by decide)⟩

/-- Claim C2 (wire format of encode).  For every package with message id `m`
and a table of non-nil values of encoded size `S ≤ 65535`, `Write` to a sink
that accepts every write hands the sink the six header bytes
`[m mod 256, m div 256, S mod 256, S div 256, 0x9E, 0x1F]` followed, for some
permutation `ord` of the entries, by the concatenation of
`[key, len mod 256, len div 256] ++ value`; every `len div 256` is below 256,
so the two-byte prefix is the true length. -/
theorem C2_wire_format {σ : Type} (W : Writer σ) (received : σ → List Byte)
    (hW : Accepting W received) (m d0 : Uint16) (Tv : List (Byte × List Byte))
    (range₁ range₂ : List (Byte × PackageMember))
    (h₁ : range₁.Perm (nonNil Tv)) (h₂ : range₂.Perm (nonNil Tv))
    (hS : encodedSize Tv ≤ 65535) (s : σ) :
    ∃ ord : List (Byte × List Byte), ord.Perm Tv ∧ (∀ e ∈ ord, e.2.length / 256 < 256) ∧
      (received (Package.Write W ⟨m, d0, some (nonNil Tv)⟩ range₁ range₂ s).writer).map Fin.val =
        (received s).map Fin.val ++
        [m.val % 256, m.val / 256, encodedSize Tv % 256, encodedSize Tv / 256, 0x9E, 0x1F] ++
        ord.flatMap
          (fun e => e.1.val :: e.2.length % 256 :: e.2.length / 256 :: e.2.map Fin.val) := by
  obtain ⟨ord, hperm, hord⟩ := perm_nonNil h₂
  subst hord
  obtain ⟨_, _, hw⟩ :=
    Write_accepting hW m d0 (nonNil Tv) Tv ord range₁ h₁ hperm hS s
  have hlen : ∀ r ∈ ord, r.2.length ≤ 65535 := by
    intro r hr
    have := le_encodedSize (hperm.subset hr)
    omega
  refine ⟨ord, hperm, ?_, ?_⟩
  · intro e he
    have := hlen e he
    omega
  · rw [hw, List.map_append, List.map_append, header_val, records_val ord hlen,
      uint16_of_le hS]

/-- Witness of C2 at the package of `TestPackage` and an empty `bytes.Buffer`. -/
theorem C2_wire_format_witness :
    (Accepting bytesBuffer id ∧ (nonNil testMembers).Perm (nonNil testMembers) ∧
      (nonNil testMembers).reverse.Perm (nonNil testMembers) ∧
      encodedSize testMembers ≤ 65535) ∧
    ∃ ord : List (Byte × List Byte), ord.Perm testMembers ∧
      (∀ e ∈ ord, e.2.length / 256 < 256) ∧
      (id (Package.Write bytesBuffer ⟨0x2211, 0, some (nonNil testMembers)⟩
        (nonNil testMembers) (nonNil testMembers).reverse []).writer).map Fin.val =
        (id ([] : List Byte)).map Fin.val ++
        [(0x2211 : Uint16).val % 256, (0x2211 : Uint16).val / 256,
          encodedSize testMembers % 256, encodedSize testMembers / 256, 0x9E, 0x1F] ++
        ord.flatMap
          (fun e => e.1.val :: e.2.length % 256 :: e.2.length / 256 :: e.2.map Fin.val) :=
  ⟨⟨bytesBuffer_accepting, List.Perm.refl _, List.reverse_perm _, by decide⟩,
    C2_wire_format bytesBuffer id bytesBuffer_accepting 0x2211 0 testMembers
      (nonNil testMembers) (nonNil testMembers).reverse
      (List.Perm.refl _) (List.reverse_perm _) (by decide) []⟩

/-- Claim C3 (byte count of encode).  For every package with a table of non-nil
values of encoded size `S ≤ 65535`, `Write` to a sink that accepts every write
returns `(6 + S, nil)`; the `dataSize` left in the package is `S`; the sink
has received the header carrying that `dataSize` followed by a payload of
exactly `S` bytes, `6 + S` bytes in all. -/
theorem C3_byte_count {σ : Type} (W : Writer σ) (received : σ → List Byte)
    (hW : Accepting W received) (m d0 : Uint16) (Tv : List (Byte × List Byte))
    (range₁ range₂ : List (Byte × PackageMember))
    (h₁ : range₁.Perm (nonNil Tv)) (h₂ : range₂.Perm (nonNil Tv))
    (hS : encodedSize Tv ≤ 65535) (s : σ) :
    (Package.Write W ⟨m, d0, some (nonNil Tv)⟩ range₁ range₂ s).ret =
        some (6 + encodedSize Tv, none) ∧
    (Package.Write W ⟨m, d0, some (nonNil Tv)⟩ range₁ range₂ s).pack.dataSize.val =
        encodedSize Tv ∧
    ∃ payload,
      received (Package.Write W ⟨m, d0, some (nonNil Tv)⟩ range₁ range₂ s).writer =
        received s ++
          header m (Package.Write W ⟨m, d0, some (nonNil Tv)⟩ range₁ range₂ s).pack.dataSize ++
          payload ∧
      payload.length = encodedSize Tv ∧
      (header m (Package.Write W ⟨m, d0, some (nonNil Tv)⟩ range₁ range₂ s).pack.dataSize
        ++ payload).length = 6 + encodedSize Tv := by
  obtain ⟨ord, hperm, hord⟩ := perm_nonNil h₂
  subst hord
  obtain ⟨hp, hret, hw⟩ :=
    Write_accepting hW m d0 (nonNil Tv) Tv ord range₁ h₁ hperm hS s
  have hpl : (ord.flatMap record).length = encodedSize Tv := by
    rw [length_records, encodedSize_perm hperm]
  refine ⟨hret, ?_, ord.flatMap record, ?_, hpl, ?_⟩
  · rw [hp]; exact uint16_of_le hS
  · rw [hw, hp]
  · rw [List.length_append, header_length, hpl]

/-- Witness of C3 at the package of `TestPackage` and an empty `bytes.Buffer`. -/
theorem C3_byte_count_witness :
    (Accepting bytesBuffer id ∧ (nonNil testMembers).Perm (nonNil testMembers) ∧
      (nonNil testMembers).reverse.Perm (nonNil testMembers) ∧
      encodedSize testMembers ≤ 65535) ∧
    ((Package.Write bytesBuffer ⟨0x2211, 0, some (nonNil testMembers)⟩ (nonNil testMembers)
        (nonNil testMembers).reverse []).ret = some (6 + encodedSize testMembers, none) ∧
    (Package.Write bytesBuffer ⟨0x2211, 0, some (nonNil testMembers)⟩ (nonNil testMembers)
        (nonNil testMembers).reverse []).pack.dataSize.val = encodedSize testMembers ∧
    ∃ payload,
      id (Package.Write bytesBuffer ⟨0x2211, 0, some (nonNil testMembers)⟩ (nonNil testMembers)
        (nonNil testMembers).reverse []).writer =
        id [] ++
          header 0x2211 (Package.Write bytesBuffer ⟨0x2211, 0, some (nonNil testMembers)⟩
            (nonNil testMembers) (nonNil testMembers).reverse []).pack.dataSize ++
          payload ∧
      payload.length = encodedSize testMembers ∧
      (header 0x2211 (Package.Write bytesBuffer ⟨0x2211, 0, some (nonNil testMembers)⟩
            (nonNil testMembers) (nonNil testMembers).reverse []).pack.dataSize
        ++ payload).length = 6 + encodedSize testMembers) :=
  ⟨⟨bytesBuffer_accepting, List.Perm.refl _, List.reverse_perm _, by decide⟩,
    C3_byte_count bytesBuffer id bytesBuffer_accepting 0x2211 0 testMembers
      (nonNil testMembers) (nonNil testMembers).reverse
      (List.Perm.refl _) (List.reverse_perm _) (by decide) []⟩

/-- Claim C4 (overflow guard), at a table with a nil member.  In
`nilMemberTable` the sum over the members of `3 + len(value)` is 65538, above
65535, yet for every order of the two loops `Write` does not fail: the guard
counted 65535 (`dataSize` is 65535), and `Write` returns `(65544, nil)` after
handing the sink the header and 65538 payload bytes. -/
theorem C4_overflow_guard_nil_member :
    nilMemberTable.Valid ∧
    (nilMemberTable.map (fun e => 3 + (e.2.getD []).length)).sum = 65538 ∧
    ∀ range₁ range₂ : List (Byte × PackageMember),
      range₁.Perm nilMemberTable → range₂.Perm nilMemberTable →
      (Package.Write bytesBuffer ⟨0, 0, some nilMemberTable⟩ range₁ range₂ []).ret
        = some (65544, none) ∧
      (Package.Write bytesBuffer ⟨0, 0, some nilMemberTable⟩ range₁ range₂ []).pack.dataSize
        = 65535 ∧
      (Package.Write bytesBuffer ⟨0, 0, some nilMemberTable⟩ range₁ range₂ []).writer.length
        = 6 + 65538 := by
  have hlen : 3 + (List.replicate 65532 (0 : Byte)).length = 65535 := by
    rw [List.length_replicate]
  refine ⟨by decide, ?_, ?_⟩
  · exact (claimedSize_nil_pair 0 1 (List.replicate 65532 0)).trans
      (by rw [List.length_replicate])
  · intro range₁ range₂ h₁ h₂
    have h := Write_nil_pair 0 1 (List.replicate 65532 0) hlen nilMemberTable range₁ range₂
      (perm_pair h₁) (perm_pair h₂)
    exact ⟨h.1, h.2.1, h.2.2.1⟩

/-- Claim C5 (header integrity).  For every six bytes `b0 .. b5`,
`parsePackageHead` succeeds if and only if `b4 = 0x9E` and `b5 = 0x1F`,
whatever `b0 .. b3` are; with any other trailer it returns an error (and no
package). -/
theorem C5_header_integrity (b0 b1 b2 b3 b4 b5 : Byte) :
    ((∃ pack, parsePackageHead [b0, b1, b2, b3, b4, b5] = .ok pack) ↔
        (b4 = 0x9E ∧ b5 = 0x1F)) ∧
    (¬ (b4 = 0x9E ∧ b5 = 0x1F) →
        ∃ err, parsePackageHead [b0, b1, b2, b3, b4, b5] = .error err) := by
  rw [parsePackageHead_six]
  by_cases h : b4 ≠ 0x9E ∨ b5 ≠ 0x1F
  · rw [if_pos h]
    have h' : ¬ (b4 = 0x9E ∧ b5 = 0x1F) := by tauto
    simp [h']
  · rw [if_neg h]
    have h' : b4 = 0x9E ∧ b5 = 0x1F := by tauto
    simp [h']

/-- Claim C6 (header layout).  For every message id `m` and declared length `d`,
`headBytes` returns no error and the six bytes
`[m mod 256, m div 256, d mod 256, d div 256, 0x9E, 0x1F]`; for `m = 0x2211`,
`d = 0x4433` these are `11 22 33 44 9E 1F`. -/
theorem C6_headBytes_layout (m d : Uint16) (T : Option PackageMembers) :
    (∃ headData, Package.headBytes ⟨m, d, T⟩ = .ok headData ∧
      headData.map Fin.val =
        [m.val % 256, m.val / 256, d.val % 256, d.val / 256, 0x9E, 0x1F]) ∧
    Package.headBytes ⟨0x2211, 0x4433, T⟩ = .ok [0x11, 0x22, 0x33, 0x44, 0x9E, 0x1F] := by
  refine ⟨⟨_, headBytes_eq _, ?_⟩, ?_⟩
  swap
  · rw [headBytes_eq]; dsimp only; exact congrArg Except.ok (by decide)
  have hm := m.isLt
  have hd := d.isLt
  simp only [List.map_cons, List.map_nil, byte_val]
  have h1 : m.val / 256 % 256 = m.val / 256 := by omega
  have h2 : d.val / 256 % 256 = d.val / 256 := by omega
  rw [h1, h2]
  rfl

/-- Claim C7 (header round trip).  For every message id `m` and declared length
`d`, `parsePackageHead` on the bytes `headBytes` returns succeeds with
`MsgId = m` and `dataSize = d`; and every six-byte header with the trailer
`9E 1F` decodes to `MsgId = b0 + 256 * b1`, `dataSize = b2 + 256 * b3`. -/
theorem C7_header_round_trip (m d : Uint16) (T : Option PackageMembers) :
    (∃ headData, Package.headBytes ⟨m, d, T⟩ = .ok headData ∧
      parsePackageHead headData = .ok ⟨m, d, none⟩) ∧
    (∀ b0 b1 b2 b3 : Byte, ∃ pack,
      parsePackageHead [b0, b1, b2, b3, 0x9E, 0x1F] = .ok pack ∧
      pack.MsgId.val = b0.val + 256 * b1.val ∧
      pack.dataSize.val = b2.val + 256 * b3.val ∧ pack.members = none) := by
  constructor
  · refine ⟨_, headBytes_eq _, ?_⟩
    rw [parsePackageHead_six]
    simp [uint16_split]
  · intro b0 b1 b2 b3
    refine ⟨⟨uint16 (b0.val + 256 * b1.val), uint16 (b2.val + 256 * b3.val), none⟩,
      ?_, uint16_bytes b0 b1, uint16_bytes b2 b3, rfl⟩
    rw [parsePackageHead_six]
    simp

/-- Claim C8 (decode reference).  For every finite sequence of records
`(k, v)` with `len(v) ≤ 65535`, the bytes of the concatenation of the records
are `[k, len(v) mod 256, len(v) div 256] ++ v`, and `parseMembers` on them
succeeds with a table (keys pairwise distinct) that maps every key to the
value of the last record bearing it and holds no other key. -/
theorem C8_decode_reference (recs : List (Byte × List Byte))
    (hlen : ∀ r ∈ recs, r.2.length ≤ 65535) :
    (recs.flatMap record).map Fin.val =
      recs.flatMap (fun r => r.1.val :: r.2.length % 256 :: r.2.length / 256 :: r.2.map Fin.val) ∧
    ∃ T, parseMembers (recs.flatMap record) = .ok T ∧ T.Valid ∧
      ∀ k, PackageMembers.lookup T k =
        (recs.reverse.find? (fun r => r.1 = k)).map (fun r => some r.2) := by
  refine ⟨records_val recs hlen, storeAll [] recs, parseMembers_records recs hlen,
    valid_storeAll recs [] List.nodup_nil, ?_⟩
  intro k
  rw [lookup_storeAll]
  cases List.find? (fun r => decide (r.1 = k)) recs.reverse <;> rfl

/-- Witness of C8 at three records, two of them bearing the key `65`. -/
theorem C8_decode_reference_witness :
    (∀ r ∈ [((65 : Byte), ([1, 2] : List Byte)), (66, []), (65, [7])], r.2.length ≤ 65535) ∧
    (([((65 : Byte), ([1, 2] : List Byte)), (66, []), (65, [7])].flatMap record).map Fin.val =
      [((65 : Byte), ([1, 2] : List Byte)), (66, []), (65, [7])].flatMap
        (fun r => r.1.val :: r.2.length % 256 :: r.2.length / 256 :: r.2.map Fin.val) ∧
    ∃ T, parseMembers
        ([((65 : Byte), ([1, 2] : List Byte)), (66, []), (65, [7])].flatMap record) = .ok T ∧
      T.Valid ∧
      ∀ k, PackageMembers.lookup T k =
        ([((65 : Byte), ([1, 2] : List Byte)), (66, []), (65, [7])].reverse.find?
          (fun r => r.1 = k)).map (fun r => some r.2)) :=
  ⟨by decide, C8_decode_reference _ (by decide)⟩

/-- Claim C9 (truncation guard).  For every buffer in which, scanning records
from offset 0, some record announces more bytes than remain after its length
field, `parseMembers` returns an error (the one made with
`errors.New("EOF")`) and no table; and `ParsePackage` on a frame that carries
this buffer as its payload returns that error and no package. -/
theorem C9_truncation_guard (data : List Byte) (ht : Truncated data) :
    parseMembers data = .error (Error.New "EOF") ∧
    ∀ (m : Uint16) (tail : List Byte), data.length ≤ 65535 →
      (ParsePackage (header m (uint16 data.length) ++ data ++ tail)).1 =
        .error (Error.New "EOF") := by
  have hp : parseMembers data = .error (Error.New "EOF") :=
    parseMembersLoop_truncated ht _ _ le_rfl
  refine ⟨hp, ?_⟩
  intro m tail hlen
  rw [ParsePackage_frame m (uint16 data.length) data tail (uint16_of_le hlen).symm, hp]

/-- Witness of C9 at a buffer whose second record announces five bytes where
two remain. -/
theorem C9_truncation_guard_witness :
    Truncated [65, 1, 0, 7, 66, 5, 0, 1, 2] ∧
    (parseMembers [65, 1, 0, 7, 66, 5, 0, 1, 2] = .error (Error.New "EOF") ∧
    ∀ (m : Uint16) (tail : List Byte), [(65 : Byte), 1, 0, 7, 66, 5, 0, 1, 2].length ≤ 65535 →
      (ParsePackage (header m (uint16 [(65 : Byte), 1, 0, 7, 66, 5, 0, 1, 2].length) ++
        [65, 1, 0, 7, 66, 5, 0, 1, 2] ++ tail)).1 = .error (Error.New "EOF")) :=
  have ht : Truncated [65, 1, 0, 7, 66, 5, 0, 1, 2] :=
    Truncated.later 65 1 0 [7, 66, 5, 0, 1, 2] (by decide)
      (Truncated.here 66 5 0 [1, 2] (by decide))
  ⟨ht, C9_truncation_guard _ ht⟩

/-- Claim C10 (zero-length payload).  `parseMembers` on the empty buffer returns
the empty table and no error; and for every message id `m`, `ParsePackage` on
a stream that begins with the header `[m mod 256, m div 256, 0, 0, 0x9E, 0x1F]`
succeeds with `MsgId = m`, `dataSize = 0` and the empty table, leaving
everything after the six header bytes unread. -/
theorem C10_zero_length_payload :
    parseMembers [] = .ok [] ∧
    ∀ (m : Uint16) (rest : List Byte),
      (header m 0).map Fin.val = [m.val % 256, m.val / 256, 0, 0, 0x9E, 0x1F] ∧
      ParsePackage (header m 0 ++ rest) = (.ok ⟨m, 0, some []⟩, rest) := by
  refine ⟨rfl, ?_⟩
  intro m rest
  constructor
  · have hm := m.isLt
    simp only [header, List.map_cons, List.map_nil, byte_val]
    have h1 : m.val % 256 % 256 = m.val % 256 := by omega
    have h2 : m.val / 256 % 256 = m.val / 256 := by omega
    rw [h1, h2]
    rfl
  · have h := ParsePackage_frame m 0 [] rest rfl
    rw [List.append_nil] at h
    rw [h]
    rfl

/-- Claim C11 (read fully or fail).  For every byte stream `s`, with `L` the
little-endian `uint16` at offsets 2 and 3: `ParsePackage` fails when `s` holds
fewer than 6 bytes or fewer than `6 + L` bytes; and whenever it succeeds, `s`
holds at least `6 + L` bytes, the returned `dataSize` is `L`, and what is
left unread is `s` without its first `6 + L` bytes, so that a second
`ParsePackage` starts at the next frame. -/
theorem C11_read_fully_or_fail (s : List Byte) :
    (s.length < 6 → ∃ err, (ParsePackage s).1 = .error err) ∧
    (s.length < 6 + declaredLength s → ∃ err, (ParsePackage s).1 = .error err) ∧
    (∀ pack, (ParsePackage s).1 = .ok pack →
      6 + declaredLength s ≤ s.length ∧
      pack.dataSize.val = declaredLength s ∧
      (ParsePackage s).2 = s.drop (6 + declaredLength s) ∧
      ParsePackage (ParsePackage s).2 = ParsePackage (s.drop (6 + declaredLength s))) := by
  by_cases hs : s.length < 6
  · obtain ⟨err, he⟩ := ParsePackage_short s hs
    refine ⟨fun _ => ⟨err, by rw [he]⟩, fun _ => ⟨err, by rw [he]⟩, ?_⟩
    intro pack hp
    rw [he] at hp
    exact Result.noConfusion hp
  · obtain ⟨b0, b1, b2, b3, b4, b5, rest, rfl⟩ := length_ge_six s (by omega)
    have hL : declaredLength (b0 :: b1 :: b2 :: b3 :: b4 :: b5 :: rest) =
        b2.val + 256 * b3.val := rfl
    rw [hL]
    by_cases h : b4 ≠ 0x9E ∨ b5 ≠ 0x1F
    · rw [ParsePackage_six, if_pos h]
      refine ⟨fun _ => ⟨_, rfl⟩, fun _ => ⟨_, rfl⟩, ?_⟩
      intro pack hp
      exact Result.noConfusion hp
    · by_cases hlen : rest.length < b2.val + 256 * b3.val
      · rw [ParsePackage_six, if_neg h]
        obtain ⟨err, he⟩ := ReadAtLeast_short rest _ hlen
        rw [he]
        refine ⟨fun _ => ⟨_, rfl⟩, fun _ => ⟨_, rfl⟩, ?_⟩
        intro pack hp
        exact Result.noConfusion hp
      · have hle : b2.val + 256 * b3.val ≤ rest.length := by omega
        have h4 : b4 = 0x9E := by
          by_contra hne; exact h (Or.inl hne)
        have h5 : b5 = 0x1F := by
          by_contra hne; exact h (Or.inr hne)
        subst h4 h5
        rw [ParsePackage_enough b0 b1 b2 b3 rest hle]
        have hdrop : (b0 :: b1 :: b2 :: b3 :: (0x9E : Byte) :: (0x1F : Byte) :: rest).drop
            (6 + (b2.val + 256 * b3.val)) = rest.drop (b2.val + 256 * b3.val) := by
          rw [Nat.add_comm]; rfl
        refine ⟨fun hc => ?_, fun hc => ?_, ?_⟩
        · simp only [List.length_cons] at hc; omega
        · simp only [List.length_cons] at hc; omega
        · intro pack hp
          cases hpm : parseMembers (rest.take (b2.val + 256 * b3.val)) with
          | error err => rw [hpm] at hp; exact Result.noConfusion hp
          | panic => rw [hpm] at hp; exact Result.noConfusion hp
          | outOfFuel => rw [hpm] at hp; exact Result.noConfusion hp
          | ok members =>
            rw [hpm] at hp
            have hpk := Result.ok.inj hp
            subst hpk
            refine ⟨?_, uint16_bytes b2 b3, hdrop.symm, by rw [hdrop]⟩
            simp only [List.length_cons]; omega

/-- Counterexample to C12 as stated.  A package made by `NewPackage` from a
non-nil pointer to the nil map has a non-nil member table (`Member` reads it
and finds nothing), and `AddMember` and `AddStringMember` on it end in a
run-time panic.  And with `v1` equal to `v2` on a made empty table, the value
`v1` is retrievable under the key `'A'` after the two calls although it was
not stored under it before. -/
theorem C12_overwrite_counterexample :
    (NewPackage 1 (some []) = ⟨1, 0, some []⟩ ∧
      Package.Member ⟨1, 0, some []⟩ 65 = .ok none ∧
      Package.AddMember ⟨1, 0, some []⟩ 65 (some [120]) true = .panic ∧
      Package.AddStringMember ⟨1, 0, some []⟩ 65 [120] true = .panic) ∧
    (Package.AddMember ⟨1, 0, some []⟩ 65 (some [120]) false =
        .ok ⟨1, 0, some [(65, some [120])]⟩ ∧
      Package.AddMember ⟨1, 0, some [(65, some [120])]⟩ 65 (some [120]) false =
        .ok ⟨1, 0, some [(65, some [120])]⟩ ∧
      PackageMembers.lookup [(65, some [120])] 65 = some (some [120]) ∧
      PackageMembers.lookup [] 65 ≠ some (some [120])) := by
  decide

/-- Claim C12, amended (overwrite semantics).  For every package whose member
table pointer is non-nil and points to a made (non-nil) map, with keys
pairwise distinct, every key `k` and values `v1`, `v2`: `AddMember(k, v1)`
followed by `AddMember(k, v2)` returns both times and leaves a table in which
`Member(k)` returns `v2`, which holds exactly one entry for `k`, in which the
entry of every other key is unchanged, and in which, for `v1` other than
`v2`, `v1` is stored under no key it was not stored under before; likewise
for `AddStringMember` with strings `s1`, `s2`. -/
theorem C12_overwrite_semantics (m d : Uint16) (T : PackageMembers) (hv : T.Valid)
    (k : Byte) (v1 v2 : PackageMember) (s1 s2 : List Byte) :
    (∃ p1 T2, Package.AddMember ⟨m, d, some T⟩ k v1 false = .ok p1 ∧
      Package.AddMember p1 k v2 false = .ok ⟨m, d, some T2⟩ ∧
      Package.Member ⟨m, d, some T2⟩ k = .ok v2 ∧
      PackageMembers.lookup T2 k = some v2 ∧
      T2.Valid ∧ (T2.map Prod.fst).count k = 1 ∧
      (∀ k', k' ≠ k → PackageMembers.lookup T2 k' = PackageMembers.lookup T k') ∧
      (v1 ≠ v2 → ∀ k', PackageMembers.lookup T2 k' = some v1 →
        PackageMembers.lookup T k' = some v1)) ∧
    (∃ p1 T2, Package.AddStringMember ⟨m, d, some T⟩ k s1 false = .ok p1 ∧
      Package.AddStringMember p1 k s2 false = .ok ⟨m, d, some T2⟩ ∧
      Package.Member ⟨m, d, some T2⟩ k = .ok (some s2) ∧
      PackageMembers.lookup T2 k = some (some s2) ∧
      T2.Valid ∧ (T2.map Prod.fst).count k = 1 ∧
      (∀ k', k' ≠ k → PackageMembers.lookup T2 k' = PackageMembers.lookup T k') ∧
      (s1 ≠ s2 → ∀ k', PackageMembers.lookup T2 k' = some (some s1) →
        PackageMembers.lookup T k' = some (some s1))) := by
  constructor
  · obtain ⟨h1, h2, h3, h4, h5⟩ := store_store T hv k v1 v2
    refine ⟨_, _, rfl, rfl, ?_, h1, h2, h3, h4, h5⟩
    simp only [Package.Member, h1]
  · obtain ⟨h1, h2, h3, h4, h5⟩ := store_store T hv k (some s1) (some s2)
    refine ⟨_, _, rfl, rfl, ?_, h1, h2, h3, h4, ?_⟩
    · simp only [Package.Member, h1]
    · intro hne
      exact h5 (fun h => hne (Option.some.inj h))

/-- Witness of C12 (amended) at the table of `TestPackage`, the key `'A'` and
the values `"x"`, `"y"`. -/
theorem C12_overwrite_semantics_witness :
    (nonNil testMembers).Valid ∧
    ((∃ p1 T2,
      Package.AddMember ⟨1, 0, some (nonNil testMembers)⟩ 65 (some [120]) false = .ok p1 ∧
      Package.AddMember p1 65 (some [121]) false = .ok ⟨1, 0, some T2⟩ ∧
      Package.Member ⟨1, 0, some T2⟩ 65 = .ok (some [121]) ∧
      PackageMembers.lookup T2 65 = some (some [121]) ∧
      T2.Valid ∧ (T2.map Prod.fst).count 65 = 1 ∧
      (∀ k', k' ≠ 65 →
        PackageMembers.lookup T2 k' = PackageMembers.lookup (nonNil testMembers) k') ∧
      ((some [120] : PackageMember) ≠ some [121] → ∀ k',
        PackageMembers.lookup T2 k' = some (some [120]) →
        PackageMembers.lookup (nonNil testMembers) k' = some (some [120]))) ∧
    (∃ p1 T2,
      Package.AddStringMember ⟨1, 0, some (nonNil testMembers)⟩ 65 [120] false = .ok p1 ∧
      Package.AddStringMember p1 65 [121] false = .ok ⟨1, 0, some T2⟩ ∧
      Package.Member ⟨1, 0, some T2⟩ 65 = .ok (some [121]) ∧
      PackageMembers.lookup T2 65 = some (some [121]) ∧
      T2.Valid ∧ (T2.map Prod.fst).count 65 = 1 ∧
      (∀ k', k' ≠ 65 →
        PackageMembers.lookup T2 k' = PackageMembers.lookup (nonNil testMembers) k') ∧
      (([120] : List Byte) ≠ [121] → ∀ k',
        PackageMembers.lookup T2 k' = some (some [120]) →
        PackageMembers.lookup (nonNil testMembers) k' = some (some [120])))) :=
  ⟨by decide, C12_overwrite_semantics 1 0 (nonNil testMembers) (by decide) 65
    (some [120]) (some [121]) [120] [121]⟩

/-- Claim C13 (missing-member accessors).  For every package with a non-nil
member table: `AMember`, `BMember`, `CMember` return the stored value and no
error when the key `'A'`, `'B'`, `'C'` is present (whatever the value, also a
zero-length one) and otherwise the error `member A is nil` (`B`, `C`);
`TwoMembers` succeeds iff `'A'` and `'B'` are present and `ThreeMembers` iff
`'A'`, `'B'` and `'C'` are, returning the stored values, and on failure each
returns the error that names the first absent key in the order A, B, C. -/
theorem C13_missing_member_accessors (m d : Uint16) (T : PackageMembers) :
    (PACKAGE_MEMBER_TYPE_A = 65 ∧ PACKAGE_MEMBER_TYPE_B = 66 ∧ PACKAGE_MEMBER_TYPE_C = 67) ∧
    ((∀ a, PackageMembers.lookup T 65 = some a → Package.AMember ⟨m, d, some T⟩ = .ok a) ∧
      (PackageMembers.lookup T 65 = none →
        Package.AMember ⟨m, d, some T⟩ = .error (Error.New "member A is nil"))) ∧
    ((∀ b, PackageMembers.lookup T 66 = some b → Package.BMember ⟨m, d, some T⟩ = .ok b) ∧
      (PackageMembers.lookup T 66 = none →
        Package.BMember ⟨m, d, some T⟩ = .error (Error.New "member B is nil"))) ∧
    ((∀ c, PackageMembers.lookup T 67 = some c → Package.CMember ⟨m, d, some T⟩ = .ok c) ∧
      (PackageMembers.lookup T 67 = none →
        Package.CMember ⟨m, d, some T⟩ = .error (Error.New "member C is nil"))) ∧
    (((∃ r, Package.TwoMembers ⟨m, d, some T⟩ = .ok r) ↔
        (PackageMembers.lookup T 65 ≠ none ∧ PackageMembers.lookup T 66 ≠ none)) ∧
      (∀ a b, PackageMembers.lookup T 65 = some a → PackageMembers.lookup T 66 = some b →
        Package.TwoMembers ⟨m, d, some T⟩ = .ok (a, b)) ∧
      (PackageMembers.lookup T 65 = none →
        Package.TwoMembers ⟨m, d, some T⟩ = .error (Error.New "member A is nil")) ∧
      (PackageMembers.lookup T 65 ≠ none → PackageMembers.lookup T 66 = none →
        Package.TwoMembers ⟨m, d, some T⟩ = .error (Error.New "member B is nil"))) ∧
    (((∃ r, Package.ThreeMembers ⟨m, d, some T⟩ = .ok r) ↔
        (PackageMembers.lookup T 65 ≠ none ∧ PackageMembers.lookup T 66 ≠ none ∧
          PackageMembers.lookup T 67 ≠ none)) ∧
      (∀ a b c, PackageMembers.lookup T 65 = some a → PackageMembers.lookup T 66 = some b →
        PackageMembers.lookup T 67 = some c →
        Package.ThreeMembers ⟨m, d, some T⟩ = .ok (a, b, c)) ∧
      (PackageMembers.lookup T 65 = none →
        Package.ThreeMembers ⟨m, d, some T⟩ = .error (Error.New "member A is nil")) ∧
      (PackageMembers.lookup T 65 ≠ none → PackageMembers.lookup T 66 = none →
        Package.ThreeMembers ⟨m, d, some T⟩ = .error (Error.New "member B is nil")) ∧
      (PackageMembers.lookup T 65 ≠ none → PackageMembers.lookup T 66 ≠ none →
        PackageMembers.lookup T 67 = none →
        Package.ThreeMembers ⟨m, d, some T⟩ = .error (Error.New "member C is nil"))) := by
  refine ⟨⟨rfl, rfl, rfl⟩, ?_⟩
  simp only [Package.AMember, Package.BMember, Package.CMember, Package.TwoMembers,
    Package.ThreeMembers, PACKAGE_MEMBER_TYPE_A, PACKAGE_MEMBER_TYPE_B, PACKAGE_MEMBER_TYPE_C]
  cases hA : PackageMembers.lookup T 65 <;> cases hB : PackageMembers.lookup T 66 <;>
    cases hC : PackageMembers.lookup T 67 <;> simp

/-- Claim C14 (failed-write byte count), at two failing sinks.  On a sink that
accepts the header and fails every later write, `Write` of the package
`'A': "x"` returns `(7, err)` although the sink accepted 6 bytes: the key byte
is counted without looking at the result of its write.  On a sink with room
for 3 bytes, `Write` of a package with an empty table returns `(0, err)`
although the sink accepted 3 bytes of the header. -/
theorem C14_failed_write_count :
    ((Package.Write failAfterFirst oneMemberPackage [(65, some [120])] [(65, some [120])] []).ret
        = some (7, some (Error.New "write failed")) ∧
      (Package.Write failAfterFirst oneMemberPackage [(65, some [120])] [(65, some [120])]
        []).writer = [([1, 0, 4, 0, 0x9E, 0x1F], 6), ([65], 0), ([1, 0], 0)] ∧
      acceptedBytes (Package.Write failAfterFirst oneMemberPackage [(65, some [120])]
        [(65, some [120])] []).writer = 6) ∧
    ((Package.Write (limitedWriter 3) ⟨1, 0, some []⟩ [] [] []).ret
        = some (0, some (Error.New "short write")) ∧
      (Package.Write (limitedWriter 3) ⟨1, 0, some []⟩ [] [] []).writer = [1, 0, 0]) := by
  decide

/-- Claim C15 (failed write aborts), at a failing sink.  On a sink that fails
the second write only, `Write` of the package `'A': "x"` is told of an error
by the write of the key byte (count 0), and yet it issues two further writes
(the length prefix and the value) and returns `(10, nil)`. -/
theorem C15_failed_write_goes_on :
    (Package.Write failSecondOnly oneMemberPackage [(65, some [120])] [(65, some [120])] []).ret
      = some (10, none) ∧
    (Package.Write failSecondOnly oneMemberPackage [(65, some [120])] [(65, some [120])]
      []).writer = [([1, 0, 4, 0, 0x9E, 0x1F], 6), ([65], 0), ([1, 0], 2), ([120], 1)] ∧
    (failSecondOnly.Write [([1, 0, 4, 0, 0x9E, 0x1F], 6)] [65]).2 =
      (0, some (Error.New "write failed")) := by
  decide

/-- Counterexample to C16 as stated: a frame whose payload holds two records
under the key `'A'` is accepted with `dataSize = 6`, while the table returned
has the single entry `'A'`, of size 3. -/
theorem C16_declared_length_counterexample :
    ParsePackage [1, 0, 6, 0, 0x9E, 0x1F, 65, 0, 0, 65, 0, 0] =
      (.ok ⟨1, 6, some [(65, some [])]⟩, []) ∧
    tableSize [(65, some [])] = 3 ∧
    (⟨1, 6, some [(65, some [])]⟩ : Package).dataSize.val ≠ tableSize [(65, some [])] := by
  decide

/-- Claim C16, amended (declared length of decoded packets).  For every byte
stream on which `ParsePackage` succeeds, the stream is the header, then a
sequence of complete member records, then what is left unread; the table
returned is the one obtained by storing these records in order; `dataSize` is
the sum of `1 + 2 + len(value)` over the records; it is at least the sum over
the entries of the table, and equal to it when no key occurs in two
records. -/
theorem C16_declared_length_of_records (s : List Byte) (pack : Package)
    (h : (ParsePackage s).1 = .ok pack) :
    ∃ (recs : List (Byte × List Byte)) (T : PackageMembers),
      pack.members = some T ∧ T = storeAll [] recs ∧
      s = header pack.MsgId pack.dataSize ++ recs.flatMap record ++ (ParsePackage s).2 ∧
      pack.dataSize.val = encodedSize recs ∧
      tableSize T ≤ pack.dataSize.val ∧
      ((recs.map Prod.fst).Nodup → tableSize T = pack.dataSize.val) := by
  obtain ⟨recs, _, hm, hs, hd⟩ := ParsePackage_ok h
  refine ⟨recs, storeAll [] recs, hm, rfl, hs, hd, ?_, ?_⟩
  · have := tableSize_storeAll_le recs []
    rw [hd]
    simpa [tableSize] using this
  · intro hnd
    rw [storeAll_nodup recs [] (by simpa using hnd), List.nil_append, tableSize_nonNil, hd]

/-- Witness of C16 (amended) at a frame with two records under one key. -/
theorem C16_declared_length_of_records_witness :
    (ParsePackage [1, 0, 6, 0, 0x9E, 0x1F, 65, 0, 0, 65, 0, 0]).1 =
      .ok ⟨1, 6, some [(65, some [])]⟩ ∧
    ∃ (recs : List (Byte × List Byte)) (T : PackageMembers),
      (⟨1, 6, some [(65, some [])]⟩ : Package).members = some T ∧ T = storeAll [] recs ∧
      [1, 0, 6, 0, 0x9E, 0x1F, 65, 0, 0, 65, 0, 0] =
        header (⟨1, 6, some [(65, some [])]⟩ : Package).MsgId
          (⟨1, 6, some [(65, some [])]⟩ : Package).dataSize ++ recs.flatMap record ++
          (ParsePackage [1, 0, 6, 0, 0x9E, 0x1F, 65, 0, 0, 65, 0, 0]).2 ∧
      (⟨1, 6, some [(65, some [])]⟩ : Package).dataSize.val = encodedSize recs ∧
      tableSize T ≤ (⟨1, 6, some [(65, some [])]⟩ : Package).dataSize.val ∧
      ((recs.map Prod.fst).Nodup →
        tableSize T = (⟨1, 6, some [(65, some [])]⟩ : Package).dataSize.val) :=
  ⟨by decide, C16_declared_length_of_records _ _ (by decide)⟩

/-- Counterexample to C17 as stated: on the body `longBody` of 65538 bytes,
which `parseMembers` accepts, `ParsePackageForHtml` returns `dataSize = 2`. -/
theorem C17_buffered_body_counterexample :
    longBody.length = 65538 ∧
    parseMembers longBody = .ok [(0, some (List.replicate 65535 0))] ∧
    ParsePackageForHtml 1 longBody = .ok ⟨1, 2, some [(0, some (List.replicate 65535 0))]⟩ ∧
    (2 : Uint16).val ≠ 65538 :=
  ⟨(ParsePackageForHtml_long 1 0 (List.replicate 65535 0) (List.length_replicate _ _)).1,
   (ParsePackageForHtml_long 1 0 (List.replicate 65535 0) (List.length_replicate _ _)).2.1,
   (ParsePackageForHtml_long 1 0 (List.replicate 65535 0) (List.length_replicate _ _)).2.2,
   by decide⟩

/-- Claim C17, amended (buffered-body adapter).  For every message id `m` and
every body `b` on which `parseMembers` succeeds, `ParsePackageForHtml` returns
a package with `MsgId = m`, the member table `parseMembers b`, and `dataSize`
equal to `len(b)` reduced modulo 65536; so `dataSize = len(b)` exactly for the
bodies of at most 65535 bytes. -/
theorem C17_buffered_body (m : Uint16) (b : List Byte) (T : PackageMembers)
    (h : parseMembers b = .ok T) :
    ∃ pack, ParsePackageForHtml m b = .ok pack ∧ pack.MsgId = m ∧ pack.members = some T ∧
      pack.dataSize.val = b.length % 65536 ∧
      (pack.dataSize.val = b.length ↔ b.length ≤ 65535) := by
  refine ⟨_, ParsePackageForHtml_ok m b T h, rfl, rfl, uint16_val _, ?_⟩
  show (uint16 b.length).val = b.length ↔ _
  rw [uint16_val]
  omega

/-- Witness of C17 (amended) at a body of one record. -/
theorem C17_buffered_body_witness :
    parseMembers [65, 1, 0, 9] = .ok [(65, some [9])] ∧
    ∃ pack, ParsePackageForHtml 3 [65, 1, 0, 9] = .ok pack ∧ pack.MsgId = 3 ∧
      pack.members = some [(65, some [9])] ∧
      pack.dataSize.val = [(65 : Byte), 1, 0, 9].length % 65536 ∧
      (pack.dataSize.val = [(65 : Byte), 1, 0, 9].length ↔
        [(65 : Byte), 1, 0, 9].length ≤ 65535) :=
  ⟨by decide, C17_buffered_body 3 [65, 1, 0, 9] [(65, some [9])] (by decide)⟩

/-- Claim C18 (decode success characterisation).  For every buffer `d`,
`parseMembers d` succeeds if and only if `d` is a concatenation of zero or
more complete records; a buffer that ends with one or two stray bytes after
its last complete record is rejected; and the loop terminates on every input,
without a panic, within a number of iterations of a third of the buffer
length (rounded up), every iteration consuming at least three bytes. -/
theorem C18_decode_success (d : List Byte) :
    ((∃ T, parseMembers d = .ok T) ↔
      ∃ recs : List (Byte × List Byte),
        (∀ r ∈ recs, r.2.length ≤ 65535) ∧ d = recs.flatMap record) ∧
    (∀ recs : List (Byte × List Byte), (∀ r ∈ recs, r.2.length ≤ 65535) → ∀ b c : Byte,
      (∃ err, parseMembers (recs.flatMap record ++ [b]) = .error err) ∧
      (∃ err, parseMembers (recs.flatMap record ++ [b, c]) = .error err)) ∧
    parseMembers d ≠ .outOfFuel ∧ parseMembers d ≠ .panic ∧
    (∀ fuel, d.length ≤ 3 * fuel → parseMembersLoop fuel d [] = parseMembers d) := by
  refine ⟨⟨?_, ?_⟩, ?_, parseMembers_total d, parseMembersLoop_no_panic _ _ _, ?_⟩
  · rintro ⟨T, hT⟩
    obtain ⟨recs, hl, hd, _⟩ := parseMembers_ok hT
    exact ⟨recs, hl, hd⟩
  · rintro ⟨recs, hl, rfl⟩
    exact ⟨_, parseMembers_records recs hl⟩
  · intro recs hl b c
    obtain ⟨h1, h2⟩ := parseMembers_stray recs hl b c
    exact ⟨⟨_, h1⟩, ⟨_, h2⟩⟩
  · intro fuel hf
    exact parseMembersLoop_third fuel d [] hf

/-- Claim C19 (nil member table in `Write`), at every package with a nil table
pointer.  `Write` to a `bytes.Buffer` sets `dataSize` to 0 and writes the six
header bytes, and then ends in a run-time panic (the nil pointer is
dereferenced by the second `range`): it does not return `(6, nil)`. -/
theorem C19_nil_table_panics (m d : Uint16) (range₁ range₂ : List (Byte × PackageMember)) :
    (Package.Write bytesBuffer ⟨m, d, none⟩ range₁ range₂ []).ret = none ∧
    (Package.Write bytesBuffer ⟨m, d, none⟩ range₁ range₂ []).writer = header m 0 ∧
    (Package.Write bytesBuffer ⟨m, d, none⟩ range₁ range₂ []).pack = ⟨m, 0, none⟩ ∧
    (Package.SetMembers ⟨m, d, some []⟩ none).members = none := by
  have h : Package.Write bytesBuffer ⟨m, d, none⟩ range₁ range₂ [] =
      ⟨⟨m, 0, none⟩, header m 0, none⟩ := by
    simp only [Package.Write, headBytes_header, bytesBuffer, List.nil_append]
  rw [h]
  exact ⟨rfl, rfl, rfl, rfl⟩

/-- Claim C20 (nil member values in `Write`), at the table whose only member
is nil.  `Write` to a `bytes.Buffer` passes the overflow check, writes a
header that declares 0 payload bytes, and then emits 3 payload bytes,
returning `(9, nil)`; `ParsePackage` on the frame stops after the header,
leaves the 3 bytes unread, and returns the empty table, without the key 0. -/
theorem C20_nil_member_frame :
    sumDataSize nilOnlyTable = 0 ∧
    (Package.Write bytesBuffer ⟨1, 0, some nilOnlyTable⟩ nilOnlyTable nilOnlyTable []).ret
      = some (9, none) ∧
    (Package.Write bytesBuffer ⟨1, 0, some nilOnlyTable⟩ nilOnlyTable nilOnlyTable []).writer
      = [1, 0, 0, 0, 0x9E, 0x1F, 0, 0, 0] ∧
    ParsePackage
      (Package.Write bytesBuffer ⟨1, 0, some nilOnlyTable⟩ nilOnlyTable nilOnlyTable []).writer
      = (.ok ⟨1, 0, some []⟩, [0, 0, 0]) ∧
    PackageMembers.lookup nilOnlyTable 0 = some none ∧
    PackageMembers.lookup [] 0 = none := by
  decide

end Pack
